import Mathlib

/-!
Verification development for the webpack-bundling-demo repository: a teaching
JavaScript bundler (resolver, parser extraction, dependency-graph builder,
chunk planner, module transformer, code generator, and the emitted runtime
loader).  The JavaScript sources are shallowly embedded as executable Lean
definitions: JS `Map` and `Set` objects become association lists and
duplicate-free lists with insertion-order semantics (which is exactly the
iteration order JS guarantees), the filesystem becomes an explicit list of
regular files, and the magic-string patch buffer becomes a checked edit list.
-/

namespace Bundler

/-! ## Association lists with JS Map semantics

JS `Map.get` returns the value stored for a key, `Map.set` replaces the value
in place (keeping the original insertion position) or appends a fresh entry,
and iteration follows insertion order.  `aget`/`aset` mirror this. -/

def aget {α : Type} (l : List (String × α)) (k : String) : Option α :=
  match l with
  | [] => none
  | (k1, v) :: rest => if k1 = k then some v else aget rest k

def aset {α : Type} (l : List (String × α)) (k : String) (v : α) : List (String × α) :=
  match l with
  | [] => [(k, v)]
  | (k1, v1) :: rest => if k1 = k then (k, v) :: rest else (k1, v1) :: aset rest k v

/-- JS `Set.add`: append the element unless it is already present. -/
def setAdd (l : List String) (x : String) : List String :=
  if x ∈ l then l else l ++ [x]

/-- Keys of an association list, in insertion order. -/
def akeys {α : Type} (l : List (String × α)) : List String :=
  l.map Prod.fst

/-- Lexicographic character-list comparison (the UTF-16 code-unit order of
the JS default sort comparator, restricted to the ASCII ids in play). -/
def listCharLe : List Char → List Char → Bool
  | [], _ => true
  | _ :: _, [] => false
  | a :: as, b :: bs =>
    if a < b then true else if b < a then false else listCharLe as bs

def strLe (a b : String) : Bool :=
  listCharLe a.data b.data

/-- JS `Array.prototype.sort()` with the default comparator on our ASCII
identifiers: ascending lexicographic order, realized as insertion sort. -/
def sortInsert (x : String) : List String → List String
  | [] => [x]
  | y :: ys => if strLe x y then x :: y :: ys else y :: sortInsert x ys

def sortStrings : List String → List String
  | [] => []
  | x :: xs => sortInsert x (sortStrings xs)

/-! ## Character-level string helpers

The JS string and regex operations are implemented over the character lists
underlying Lean strings, so that every definition evaluates by plain kernel
reduction. -/

def listStarts : List Char → List Char → Bool
  | [], _ => true
  | _ :: _, [] => false
  | a :: as, b :: bs => a == b && listStarts as bs

/-- JS `String.prototype.startsWith`. -/
def strStarts (s pre : String) : Bool :=
  listStarts pre.data s.data

/-- JS `String.prototype.endsWith`. -/
def strEnds (s suf : String) : Bool :=
  listStarts suf.data.reverse s.data.reverse

/-- Drop the first `n` characters. -/
def strDrop (s : String) (n : Nat) : String :=
  ⟨s.data.drop n⟩

/-- Drop the last `n` characters. -/
def strDropRight (s : String) (n : Nat) : String :=
  ⟨s.data.take (s.data.length - n)⟩

/-- JS `String.prototype.trim` (the transformer calls it on the patched
source). -/
def strTrim (s : String) : String :=
  ⟨((s.data.dropWhile Char.isWhitespace).reverse.dropWhile Char.isWhitespace).reverse⟩

instance {ε α : Type} [DecidableEq ε] [DecidableEq α] : DecidableEq (Except ε α) :=
  fun a b =>
    match a, b with
    | .ok x, .ok y =>
      if h : x = y then isTrue (by rw [h]) else isFalse (by simp [h])
    | .error x, .error y =>
      if h : x = y then isTrue (by rw [h]) else isFalse (by simp [h])
    | .ok _, .error _ => isFalse (by simp)
    | .error _, .ok _ => isFalse (by simp)

/-! ## POSIX path model

The bundler runs Node path functions on POSIX-style absolute paths.  Paths are
modeled as strings; `pathResolve`, `pathDirname` and `pathRelative` implement
the segment algebra of `path.resolve`, `path.dirname` and `path.relative` for
the absolute-referrer cases the bundler exercises. -/

def normSegs : List String → List String
  | [] => []
  | s :: rest =>
    if s = "" ∨ s = "." then normSegs rest
    else if s = ".." then
      match normSegs rest with
      | [] => []
      | _ :: tail => tail
    else s :: normSegs rest

def pathSegsGo (cur : List Char) : List Char → List String
  | [] => [⟨cur.reverse⟩]
  | c :: cs => if c = '/' then ⟨cur.reverse⟩ :: pathSegsGo [] cs else pathSegsGo (c :: cur) cs

/-- Segments of a path (JS `split('/')`), most significant first. -/
def pathSegs (p : String) : List String :=
  pathSegsGo [] p.data

def joinSegs (segs : List String) : String :=
  "/" ++ String.intercalate "/" segs

/-- Node `path.resolve(fromDir, spec)` for an absolute `fromDir`: concatenate
the segment lists and normalize `.` and `..` entries.  Normalization processes
segments from the right, so it is phrased over the reversed list. -/
def pathResolve (fromDir spec : String) : String :=
  if strStarts spec "/" then joinSegs ((normSegs (pathSegs spec).reverse).reverse)
  else joinSegs ((normSegs (pathSegs fromDir ++ pathSegs spec).reverse).reverse)

/-- Node `path.dirname` on an absolute path: drop the last segment. -/
def pathDirname (p : String) : String :=
  joinSegs ((normSegs (pathSegs p).reverse).reverse).dropLast

def dropCommonSegs : List String → List String → List String × List String
  | x :: xs, y :: ys => if x = y then dropCommonSegs xs ys else (x :: xs, y :: ys)
  | xs, ys => (xs, ys)

/-- Node `path.relative(root, abs)` for the case the bundler uses: both inputs
absolute, dropping the common leading segments and stepping up for whatever
remains of `root`. -/
def pathRelative (root abs : String) : String :=
  let rs := (normSegs (pathSegs root).reverse).reverse
  let as1 := (normSegs (pathSegs abs).reverse).reverse
  let (rrest, arest) := dropCommonSegs rs as1
  String.intercalate "/" (rrest.map (fun _ => "..") ++ arest)

/-! ## Resolver (src resolver module)

`resolveModule` rejects bare specifiers, then probes the candidate paths
`base`, `base.js`, `base.json`, `base/index.js` in order against the
filesystem snapshot, returning the first existing regular file.  The snapshot
is the list of regular files, so `existsSync && statSync(...).isFile()`
becomes list membership. -/

structure FileSystem where
  files : List String
deriving DecidableEq, Repr

def FileSystem.isFile (fs : FileSystem) (p : String) : Bool :=
  fs.files.contains p

def EXTENSIONS : List String := ["", ".js", ".json", "/index.js"]

inductive ResolveError where
  | bareSpecifier (specifier : String)
  | unresolved (specifier : String) (fromDir : String) (tried : List String)
deriving DecidableEq, Repr

def resolveModule (fs : FileSystem) (specifier fromDir : String) :
    Except ResolveError String :=
  if ¬ strStarts specifier "." then
    .error (.bareSpecifier specifier)
  else
    let basePath := pathResolve fromDir specifier
    match EXTENSIONS.find? (fun ext => fs.isFile (basePath ++ ext)) with
    | some ext => .ok (basePath ++ ext)
    | none => .error (.unresolved specifier fromDir (EXTENSIONS.map (fun ext => basePath ++ ext)))

/-! ## Module-id and name derivation (src dependency-graph and transformer) -/

/-- Strip a leading `./` (the transformer and chunk-id regexes `^\.\//`). -/
def stripDotSlash (s : String) : String :=
  if strStarts s "./" then strDrop s 2 else s

/-- JS `toModuleId(absolutePath, projectRoot)`: project-relative POSIX path
with a `./` in front. -/
def toModuleId (absolutePath projectRoot : String) : String :=
  "./" ++ pathRelative projectRoot absolutePath

/-- JS `toChunkId`: strip `./`, turn path separators and dots into `_`; the
final source step replaces a trailing `_js` with itself, which is kept here
verbatim even though it is the identity. -/
def toChunkId (moduleId : String) : String :=
  let s1 := stripDotSlash moduleId
  let s2 := String.mk (s1.data.map (fun c => if c = '/' ∨ c = '\\' then '_' else c))
  let s3 := String.mk (s2.data.map (fun c => if c = '.' then '_' else c))
  if strEnds s3 "_js" then strDropRight s3 3 ++ "_js" else s3

def isAlphaNum (c : Char) : Bool :=
  (('a' ≤ c && c ≤ 'z') || ('A' ≤ c && c ≤ 'Z')) || ('0' ≤ c && c ≤ '9')

/-- JS `makeVarName`: `"./utils/math.js"` becomes `"_utils_math_"`. -/
def makeVarName (modulePath : String) : String :=
  let s1 := stripDotSlash modulePath
  let s2 := if strEnds s1 ".js" then strDropRight s1 3 else s1
  "_" ++ String.mk (s2.data.map (fun c => if isAlphaNum c then c else '_')) ++ "_"

/-! ## AST nodes

The transformer walks an acorn ESTree AST with `walk.ancestor` and inspects,
for each `Identifier`, only its immediate parent: the parent node type, which
slot of the parent the identifier occupies (acorn expresses this by object
identity, e.g. `parent.key === node`; the embedding tags each child with its
role name), and the parent `computed` flag.  Nodes carry the byte range
`[start, stop)` into the module source. -/

inductive Node where
  | mk (kind : String) (name : String) (computed : Bool) (start stop : Nat)
      (children : List (String × Node))

def Node.kind : Node → String
  | .mk k _ _ _ _ _ => k

def Node.name : Node → String
  | .mk _ n _ _ _ _ => n

def Node.computed : Node → Bool
  | .mk _ _ c _ _ _ => c

def Node.start : Node → Nat
  | .mk _ _ _ s _ _ => s

def Node.stop : Node → Nat
  | .mk _ _ _ _ e _ => e

def Node.children : Node → List (String × Node)
  | .mk _ _ _ _ _ cs => cs

/-- Immediate parent context of an identifier occurrence: the parent node
kind, the role the identifier plays in it, and the parent computed flag. -/
structure ParentCtx where
  kind : String
  role : String
  computed : Bool
deriving DecidableEq, Repr

/-! Enumeration of every `Identifier` node in the tree together with its
immediate parent context, in source (pre-order) traversal order.  This is the
visit order of `walk.ancestor` restricted to the data the callback reads; the
list helper walks the ordered children of one parent. -/

mutual

def identOccurrences (ctx : Option ParentCtx) : Node → List (Option ParentCtx × Node)
  | .mk kind nm comp s e children =>
    (if kind = "Identifier" then [(ctx, Node.mk kind nm comp s e children)] else []) ++
    identOccurrencesList kind comp children

def identOccurrencesList (kind : String) (comp : Bool) :
    List (String × Node) → List (Option ParentCtx × Node)
  | [] => []
  | c :: cs =>
    identOccurrences (some ⟨kind, c.1, comp⟩) c.2 ++ identOccurrencesList kind comp cs

end

/-! ## Module records (parser output, as consumed by the later stages)

One record per absolute file path.  The resolver runs during graph
construction in the JS source and writes `resolvedPath` onto each import
site; the embedding carries those resolved paths as precomputed fields (the
resolver itself is verified separately above). -/

structure ImportSpecifier where
  localName : String
  imported : String
deriving DecidableEq, Repr

structure ImportSite where
  source : String
  specifiers : List ImportSpecifier
  nodeStart : Nat
  nodeEnd : Nat
  resolvedPath : String
deriving DecidableEq, Repr

structure NamedExport where
  localName : String
  exported : String
  nodeStart : Nat
  nodeEnd : Nat
  declStart : Option Nat
  reexportSource : Option String
deriving DecidableEq, Repr

structure DefaultExport where
  nodeStart : Nat
  declStart : Nat
  declType : String
  declName : Option String
deriving DecidableEq, Repr

structure DynamicImport where
  source : Option String
  nodeStart : Nat
  nodeEnd : Nat
  resolvedPath : Option String
deriving DecidableEq, Repr

structure Binding where
  modulePath : String
  importedName : String
deriving DecidableEq, Repr

structure ModuleInfo where
  filePath : String
  src : String
  ast : Node
  imports : List ImportSite
  namedExports : List NamedExport
  defaultExport : Option DefaultExport
  dynamicImports : List DynamicImport
  importedBindings : List (String × Binding)

/-! ## MagicString patch buffer

Edits over the original source are `(start, stop, replacement)` records.
`overwrite` and `remove` first split chunks at the range ends; splitting a
point strictly inside an already-edited chunk throws, while re-editing an
exact previously-edited range replaces its content (the last edit wins), and
`remove` of an empty range is a no-op.  Rendering applies the committed edits
to the original text in ascending offset order. -/

structure MagicStr where
  src : String
  edits : List (Nat × Nat × String)
deriving DecidableEq, Repr

def msEdit (ms : MagicStr) (s e : Nat) (content : String) : Except String MagicStr :=
  if ms.edits.any (fun ed => (decide (ed.1 < e) && decide (s < ed.2.1))
      && !(ed.1 == s && ed.2.1 == e)) then
    .error "Cannot split a chunk that has already been edited"
  else if ms.edits.any (fun ed => ed.1 == s && ed.2.1 == e) then
    .ok ⟨ms.src, ms.edits.map (fun ed => if ed.1 = s ∧ ed.2.1 = e then (s, e, content) else ed)⟩
  else
    .ok ⟨ms.src, ms.edits ++ [(s, e, content)]⟩

def msOverwrite (ms : MagicStr) (s e : Nat) (content : String) : Except String MagicStr :=
  if e ≤ s then .error "Cannot overwrite a zero-length range"
  else msEdit ms s e content

def msRemove (ms : MagicStr) (s e : Nat) : Except String MagicStr :=
  if s = e then .ok ms
  else if e < s then .error "end must be greater than start"
  else msEdit ms s e ""

def sortEditsAsc (edits : List (Nat × Nat × String)) : List (Nat × Nat × String) :=
  edits.foldr (fun ed acc => insertEditAsc ed acc) []
where
  insertEditAsc (ed : Nat × Nat × String) : List (Nat × Nat × String) → List (Nat × Nat × String)
    | [] => [ed]
    | e1 :: rest => if ed.1 ≤ e1.1 then ed :: e1 :: rest else e1 :: insertEditAsc ed rest

def renderGo : List (Nat × Nat × String) → Nat → List Char → List Char
  | [], _, cs => cs
  | (s, e, r) :: rest, pos, cs =>
    cs.take (s - pos) ++ r.data ++ renderGo rest e (cs.drop (e - pos))

def msRender (ms : MagicStr) : String :=
  ⟨renderGo (sortEditsAsc ms.edits) 0 ms.src.data⟩

/-! ## Module transformer (transformer source file)

The transformer turns one module record into the body text of its factory.
Each numbered step below mirrors the correspondingly numbered step of the
source. -/

/-- Step 1: one readable variable name per distinct import source. -/
def buildModuleVarNames (imports : List ImportSite) : List (String × String) :=
  imports.foldl
    (fun acc imp =>
      if (aget acc imp.source).isSome then acc
      else aset acc imp.source (makeVarName imp.source))
    []

/-- Step 2: the `var <name> = loadModule("<id>");` statement pushed for
one import site. -/
def loadModuleCallFor (varNames : List (String × String)) (root : String)
    (imp : ImportSite) : String :=
  let varName := (aget varNames imp.source).getD ""
  let moduleId := toModuleId imp.resolvedPath root
  s!"var {varName} = loadModule(\"{moduleId}\");"

/-- Step 2: the loop body also deletes each import declaration range. -/
def removeImports (ms : MagicStr) (imports : List ImportSite) : Except String MagicStr :=
  imports.foldlM (fun acc imp => msRemove acc imp.nodeStart imp.nodeEnd) ms

/-- State threaded through the named-export loop of step 3: the patch buffer,
the variable-name map, the pending loadModule call statements and the pending
export getters. -/
structure ExportState where
  ms : MagicStr
  varNames : List (String × String)
  loadCalls : List String
  getters : List (String × String)

/-- Step 3, one named export: delete the export syntax, then register either
a re-export getter (loading the referenced module first if this is the first
mention of that source) or a local-binding getter. -/
def processNamedExport (root filePath : String) (st : ExportState)
    (exp : NamedExport) : Except String ExportState := do
  let ms1 ← match exp.declStart with
    | some dstart => msRemove st.ms exp.nodeStart dstart
    | none => msRemove st.ms exp.nodeStart exp.nodeEnd
  match exp.reexportSource with
  | some reexp =>
    let moduleId := toModuleId (pathResolve (pathDirname filePath) reexp) root
    let (varNames1, loadCalls1) :=
      if (aget st.varNames reexp).isSome then (st.varNames, st.loadCalls)
      else
        let varName := makeVarName reexp
        (aset st.varNames reexp varName,
          st.loadCalls ++ [s!"var {varName} = loadModule(\"{moduleId}\");"])
    let varName := (aget varNames1 reexp).getD ""
    let lname := exp.localName
    .ok ⟨ms1, varNames1, loadCalls1,
      st.getters ++ [(exp.exported, s!"() => {varName}.{lname}")]⟩
  | none =>
    let lname := exp.localName
    .ok ⟨ms1, st.varNames, st.loadCalls,
      st.getters ++ [(exp.exported, s!"() => {lname}")]⟩

/-- Default-export handling of step 3 (the `if (moduleInfo.exports.hasDefault)`
block): named declarations keep their name as the getter target; anonymous
declarations and expressions get the `export default ` prefix overwritten with
`var __default_export__ = ` and a getter targeting `__default_export__`. -/
def processDefaultExport (ms : MagicStr) (getters : List (String × String))
    (dex : Option DefaultExport) :
    Except String (MagicStr × List (String × String)) := do
  match dex with
  | none => .ok (ms, getters)
  | some d =>
    if d.declType = "declaration" then do
      let ms1 ← msRemove ms d.nodeStart d.declStart
      match d.declName with
      | some declName =>
        .ok (ms1, getters ++ [("default", s!"() => {declName}")])
      | none => do
        let ms2 ← msOverwrite ms1 d.nodeStart d.declStart "var __default_export__ = "
        .ok (ms2, getters ++ [("default", "() => __default_export__")])
    else do
      let ms1 ← msOverwrite ms d.nodeStart d.declStart "var __default_export__ = "
      .ok (ms1, getters ++ [("default", "() => __default_export__")])

/-- Step 4 skip conditions: the identifier callback returns without recording
a replacement when the immediate parent context is one of these. -/
def skipIdent (ctx : Option ParentCtx) : Bool :=
  match ctx with
  | none => true
  | some p =>
    (((p.kind == "ImportSpecifier" || p.kind == "ImportDefaultSpecifier")
        || p.kind == "ImportNamespaceSpecifier") || p.kind == "ImportDeclaration")
    || (p.kind == "ExportSpecifier")
    || (p.kind == "Property" && p.role == "key" && !p.computed)
    || (p.kind == "MemberExpression" && p.role == "property" && !p.computed)
    || (p.kind == "VariableDeclarator" && p.role == "id")
    || ((p.kind == "FunctionDeclaration" || p.kind == "ClassDeclaration")
        && p.role == "id")
    || (((p.kind == "FunctionDeclaration" || p.kind == "FunctionExpression")
        || p.kind == "ArrowFunctionExpression") && p.role == "param")
    || (p.kind == "LabeledStatement" && p.role == "label")
    || (p.kind == "BreakStatement" && p.role == "label")
    || (p.kind == "ContinueStatement" && p.role == "label")

/-- Step 4 `Identifier` callback of `walk.ancestor`: decide whether one
identifier occurrence is rewritten and build its replacement text. -/
def identCallback (bindings : List (String × Binding))
    (varNames : List (String × String)) (ctx : Option ParentCtx) (n : Node) :
    Option (Nat × Nat × String) :=
  match aget bindings n.name with
  | none => none
  | some binding =>
    if skipIdent ctx then none
    else
      match aget varNames binding.modulePath with
      | none => none
      | some varName =>
        let impName := binding.importedName
        let replacement :=
          if binding.importedName == "*" then varName
          else if binding.importedName == "default" then varName ++ "[\"default\"]"
          else s!"{varName}.{impName}"
        let isCallTarget := match ctx with
          | some p => p.kind == "CallExpression" && p.role == "callee"
          | none => false
        let isTaggedTemplate := match ctx with
          | some p => p.kind == "TaggedTemplateExpression" && p.role == "tag"
          | none => false
        let replacement2 :=
          if isCallTarget || isTaggedTemplate then s!"(0, {replacement})"
          else replacement
        some (n.start, n.stop, replacement2)

/-- Step 4: all replacements collected over the AST in walk order. -/
def collectReplacements (bindings : List (String × Binding))
    (varNames : List (String × String)) (ast : Node) :
    List (Nat × Nat × String) :=
  (identOccurrences none ast).filterMap
    (fun oc => identCallback bindings varNames oc.1 oc.2)

/-- Step 4: sort replacements by descending start offset (`(a, b) => b.start -
a.start`) before applying them. -/
def sortReplacementsDesc (repls : List (Nat × Nat × String)) :
    List (Nat × Nat × String) :=
  repls.foldr (fun r acc => insertDesc r acc) []
where
  insertDesc (r : Nat × Nat × String) : List (Nat × Nat × String) →
      List (Nat × Nat × String)
    | [] => [r]
    | r1 :: rest => if r.1 ≥ r1.1 then r :: r1 :: rest else r1 :: insertDesc r rest

/-- Step 5: rewrite each resolved dynamic import site to the
`loadChunk(...).then(loadModule.bind(loadModule, ...))` pipeline. -/
def rewriteDynamicImports (root : String) (ms : MagicStr)
    (dyns : List DynamicImport) : Except String MagicStr :=
  dyns.foldlM
    (fun acc dyn =>
      match dyn.resolvedPath with
      | some rp =>
        let targetModuleId := toModuleId rp root
        let chunkId := toChunkId targetModuleId
        msOverwrite acc dyn.nodeStart dyn.nodeEnd
          s!"loadChunk(\"{chunkId}\").then(loadModule.bind(loadModule, \"{targetModuleId}\"))"
      | none => .ok acc)
    ms

/-- Result of the transformer: the intermediates plus the assembled factory
body. -/
structure TransformResult where
  varNames : List (String × String)
  loadModuleCalls : List String
  exportGetters : List (String × String)
  ms : MagicStr
  body : String
deriving DecidableEq, Repr

def transformModule (info : ModuleInfo) (projectRoot : String) :
    Except String TransformResult := do
  let varNames0 := buildModuleVarNames info.imports
  let importCalls := info.imports.map (loadModuleCallFor varNames0 projectRoot)
  let ms0 : MagicStr := ⟨info.src, []⟩
  let ms1 ← removeImports ms0 info.imports
  let st1 ← info.namedExports.foldlM (processNamedExport projectRoot info.filePath)
    (ExportState.mk ms1 varNames0 importCalls [])
  let (ms2, getters) ← processDefaultExport st1.ms st1.getters info.defaultExport
  let repls := sortReplacementsDesc
    (collectReplacements info.importedBindings st1.varNames info.ast)
  let ms3 ← repls.foldlM (fun acc r => msOverwrite acc r.1 r.2.1 r.2.2) ms2
  let ms4 ← rewriteDynamicImports projectRoot ms3 info.dynamicImports
  let lines1 :=
    if getters.length > 0 ∨ info.defaultExport.isSome then
      ["loadModule.markAsESModule(exports);"] ++
        (if getters.length > 0 then
          [let entries := String.intercalate ",\n"
            (getters.map (fun g => "    \"" ++ g.1 ++ "\": " ++ g.2))
           "loadModule.defineExports(exports, \x7b\n" ++ entries ++ "\n\x7d);"]
        else [])
    else ["loadModule.markAsESModule(exports);"]
  let lines2 :=
    if st1.loadCalls.length > 0 then lines1 ++ [String.intercalate "\n" st1.loadCalls]
    else lines1
  let lines3 := lines2 ++ [strTrim (msRender ms4)]
  .ok ⟨st1.varNames, st1.loadCalls, getters, ms4, String.intercalate "\n\n" lines3⟩

/-! ## Association-list facts used by the termination measures -/

theorem aget_eq_none_of_not_mem_keys {α : Type} {l : List (String × α)} {k : String}
    (h : k ∉ akeys l) : aget l k = none := by
  induction l with
  | nil => rfl
  | cons hd tl ih =>
    obtain ⟨k1, v⟩ := hd
    simp only [akeys, List.map_cons, List.mem_cons] at h
    push_neg at h
    have hne : k1 ≠ k := fun he => h.1 he.symm
    simp only [aget, if_neg hne]
    exact ih (by simpa [akeys] using h.2)

theorem mem_keys_of_aget_isSome {α : Type} {l : List (String × α)} {k : String}
    (h : (aget l k).isSome) : k ∈ akeys l := by
  by_contra hk
  rw [aget_eq_none_of_not_mem_keys hk] at h
  simp at h

theorem aget_isSome_of_mem_keys {α : Type} {l : List (String × α)} {k : String}
    (h : k ∈ akeys l) : (aget l k).isSome := by
  induction l with
  | nil => simp [akeys] at h
  | cons hd tl ih =>
    by_cases he : hd.1 = k
    · simp [aget, he]
    · simp only [akeys, List.map_cons, List.mem_cons] at h
      rcases h with h | h
      · exact absurd h.symm he
      · simpa [aget, he] using ih (by simpa [akeys] using h)

theorem unvisitedCount_lt {univ visited : List String} {a : String}
    (ha : a ∈ univ) (hv : a ∉ visited) :
    (univ.filter (fun x => x ∉ visited ++ [a])).length
      < (univ.filter (fun x => x ∉ visited)).length := by
  have h1 : univ.filter (fun x => x ∉ visited ++ [a])
      = (univ.filter (fun x => x ∉ visited)).filter (fun x => x ≠ a) := by
    rw [List.filter_filter]
    apply List.filter_congr
    intro x _
    simp [List.mem_append, and_comm]
  rw [h1]
  apply List.length_filter_lt_length_iff_exists.mpr
  exact ⟨a, List.mem_filter.mpr ⟨ha, by simpa using hv⟩, by simp⟩

theorem unvisitedCount_eq (visited : List String) {univ : List String} {a : String} (ha : a ∉ univ) :
    (univ.filter (fun x => x ∉ visited ++ [a])).length
      = (univ.filter (fun x => x ∉ visited)).length := by
  congr 1
  apply List.filter_congr
  intro x hx
  have hxa : x ≠ a := fun h => ha (h ▸ hx)
  simp [List.mem_append, hxa]

theorem aget_mem {α : Type} {l : List (String × α)} {k : String} {v : α}
    (h : aget l k = some v) : (k, v) ∈ l := by
  induction l with
  | nil => simp [aget] at h
  | cons hd tl ih =>
    obtain ⟨k1, v1⟩ := hd
    by_cases he : k1 = k
    · subst he
      simp [aget] at h
      simp [h]
    · simp [aget, he] at h
      exact List.mem_cons_of_mem _ (ih h)

/-- Arithmetic fact behind every BFS termination measure below: visiting a
fresh node trades one unvisited node for at most `D` queued dependencies. -/
theorem bfsMeasure_lt {u1 u r f D : Nat} (hu : u1 < u) (hf : f ≤ D) :
    u1 * (1 + D) + (r + f) < u * (1 + D) + (r + 1) := by
  have h1 : u1 + 1 ≤ u := hu
  have h2 : (u1 + 1) * (1 + D) ≤ u * (1 + D) := Nat.mul_le_mul_right _ h1
  have h3 : (u1 + 1) * (1 + D) = u1 * (1 + D) + (1 + D) := by ring
  linarith

/-! ## Dependency-graph construction (src dependency-graph module)

`buildDependencyGraph` BFSes from the entry path following static imports and
resolved literal dynamic imports, keying the graph map by absolute path.  A
dequeued path with no parse record aborts the build (in JS, `parseModule`
throws on an unreadable file). -/

/-- Dependency paths followed by the graph builder for one module record:
every static import plus every resolved literal dynamic import. -/
def graphDeps (info : ModuleInfo) : List String :=
  info.imports.map (fun imp => imp.resolvedPath)
    ++ info.dynamicImports.filterMap (fun dyn => dyn.resolvedPath)

def graphDepsBound (fs : List (String × ModuleInfo)) : Nat :=
  (fs.map (fun pr => (graphDeps pr.2).length)).sum

theorem graphDeps_length_le {fs : List (String × ModuleInfo)} {p : String}
    {info : ModuleInfo} (h : aget fs p = some info) :
    (graphDeps info).length ≤ graphDepsBound fs := by
  have hmem := aget_mem h
  have hmm : (graphDeps info).length ∈ fs.map (fun pr => (graphDeps pr.2).length) :=
    List.mem_map.mpr ⟨(p, info), hmem, rfl⟩
  exact List.single_le_sum (fun x _ => Nat.zero_le x) _ hmm

def buildGraphAux (fs : List (String × ModuleInfo))
    (graph : List (String × ModuleInfo)) (queue : List String) :
    Except String (List (String × ModuleInfo)) :=
  match queue with
  | [] => .ok graph
  | filePath :: rest =>
    if hseen : (aget graph filePath).isSome then buildGraphAux fs graph rest
    else
      match hparse : aget fs filePath with
      | none => .error ("cannot parse missing file: " ++ filePath)
      | some info =>
        let graph1 := graph ++ [(filePath, info)]
        let deps := graphDeps info
        buildGraphAux fs graph1 (rest ++ deps.filter (fun d => (aget graph1 d).isNone))
termination_by
  ((akeys fs).filter (fun x => x ∉ akeys graph)).length * (1 + graphDepsBound fs)
    + queue.length
decreasing_by
  · simp only [List.length_cons]
    omega
  · simp only [List.length_append, List.length_cons]
    have hfs : y ∈ akeys fs := mem_keys_of_aget_isSome (by simp [hparse])
    have hg : y ∉ akeys graph := by
      intro hmem
      exact hseen (aget_isSome_of_mem_keys hmem)
    have hka : akeys (graph ++ [(y, info)]) = akeys graph ++ [y] := by
      simp [akeys]
    have h1 : ((akeys fs).filter (fun x => x ∉ akeys (graph ++ [(y, info)]))).length
        < ((akeys fs).filter (fun x => x ∉ akeys graph)).length := by
      simp only [hka]
      exact unvisitedCount_lt hfs hg
    have h2 : ((graphDeps info).filter
        (fun d => (aget (graph ++ [(y, info)]) d).isNone)).length ≤ graphDepsBound fs :=
      le_trans (List.length_filter_le _ _) (graphDeps_length_le hparse)
    exact bfsMeasure_lt h1 h2

/-- JS `buildDependencyGraph(entryPath)`: BFS from the entry with an initially
empty graph map. -/
def buildDependencyGraph (fs : List (String × ModuleInfo)) (entryPath : String) :
    Except String (List (String × ModuleInfo)) :=
  buildGraphAux fs [] [entryPath]

/-! ## Chunk planner (identifyChunks and splitSharedModules) -/

/-- Static dependency module ids of one module, as the planner BFS follows
them: the `toModuleId` image of each import resolved path (a module id absent
from the map contributes nothing, mirroring the `if (!info) continue`
guard). -/
def staticDepIds (modules : List (String × ModuleInfo)) (root modId : String) :
    List String :=
  match aget modules modId with
  | some info => info.imports.map (fun (imp : ImportSite) => toModuleId imp.resolvedPath root)
  | none => []

def importsBound (modules : List (String × ModuleInfo)) : Nat :=
  (modules.map (fun pr => pr.2.imports.length)).sum

theorem staticDepIds_length_le (modules : List (String × ModuleInfo))
    (root modId : String) :
    (staticDepIds modules root modId).length ≤ importsBound modules := by
  unfold staticDepIds
  cases hda : aget modules modId with
  | none => simp [importsBound]
  | some info =>
    have hmem := aget_mem hda
    simp only [List.length_map]
    have hmm : info.imports.length ∈ modules.map (fun pr => pr.2.imports.length) :=
      List.mem_map.mpr ⟨(modId, info), hmem, rfl⟩
    exact List.single_le_sum (fun x _ => Nat.zero_le x) _ hmm

theorem staticDepIds_eq_nil {modules : List (String × ModuleInfo)}
    {root modId : String} (h : modId ∉ akeys modules) :
    staticDepIds modules root modId = [] := by
  unfold staticDepIds
  rw [aget_eq_none_of_not_mem_keys h]

/-- Step 1 of `identifyChunks`: BFS over static imports only, at module-id
level.  The dequeued id is recorded in the visited set before the module map
is consulted, exactly as in the source. -/
def mainBFS (modules : List (String × ModuleInfo)) (root : String)
    (visited queue : List String) : List String :=
  match queue with
  | [] => visited
  | modId :: rest =>
    if hv : modId ∈ visited then mainBFS modules root visited rest
    else
      let visited1 := visited ++ [modId]
      let deps := staticDepIds modules root modId
      mainBFS modules root visited1 (rest ++ deps.filter (fun d => d ∉ visited1))
termination_by
  ((akeys modules).filter (fun x => x ∉ visited)).length * (1 + importsBound modules)
    + queue.length
decreasing_by
  · simp only [List.length_cons]
    omega
  · simp only [List.length_append, List.length_cons]
    by_cases hk : y ∈ akeys modules
    · have h1 := unvisitedCount_lt hk hv
      have h2 : ((staticDepIds modules root y).filter
          (fun d => d ∉ visited ++ [y])).length ≤ importsBound modules :=
        le_trans (List.length_filter_le _ _) (staticDepIds_length_le modules root y)
      exact bfsMeasure_lt h1 h2
    · have h1 := unvisitedCount_eq visited hk
      rw [staticDepIds_eq_nil hk]
      simp only [List.filter_nil, List.length_nil, h1]
      omega

/-- Step 2 of `identifyChunks`: BFS from a dynamic-import target over
static imports, skipping and never entering main-chunk modules. -/
def lazyBFS (modules : List (String × ModuleInfo)) (root : String)
    (mainModuleIds : List String) (visited queue : List String) : List String :=
  match queue with
  | [] => visited
  | modId :: rest =>
    if hv : modId ∈ visited ∨ modId ∈ mainModuleIds then
      lazyBFS modules root mainModuleIds visited rest
    else
      let visited1 := visited ++ [modId]
      let deps := staticDepIds modules root modId
      lazyBFS modules root mainModuleIds visited1
        (rest ++ deps.filter (fun d => d ∉ visited1 ∧ d ∉ mainModuleIds))
termination_by
  ((akeys modules).filter (fun x => x ∉ visited)).length * (1 + importsBound modules)
    + queue.length
decreasing_by
  · simp only [List.length_cons]
    omega
  · push_neg at hv
    simp only [List.length_append, List.length_cons]
    by_cases hk : y ∈ akeys modules
    · have h1 := unvisitedCount_lt hk hv.1
      have h2 : ((staticDepIds modules root y).filter
          (fun d => d ∉ visited ++ [y] ∧ d ∉ mainModuleIds)).length
            ≤ importsBound modules :=
        le_trans (List.length_filter_le _ _) (staticDepIds_length_le modules root y)
      exact bfsMeasure_lt h1 h2
    · have h1 := unvisitedCount_eq visited hk
      rw [staticDepIds_eq_nil hk]
      simp only [List.filter_nil, List.length_nil, h1]
      omega

/-- One chunk of the plan.  Lazy chunks carry their dynamic-entry module id;
shared chunks carry instead the set of lazy chunk ids that originally
contained their modules. -/
structure Chunk where
  id : String
  moduleIds : List String
  entryModuleId : Option String
  originalChunks : List String
deriving DecidableEq, Repr

/-- First loop of `splitSharedModules`: for each module id, the (deduplicated,
insertion-ordered) list of lazy chunk ids containing it. -/
def moduleCountsOf (lazyChunks : List (String × Chunk)) :
    List (String × List String) :=
  lazyChunks.foldl
    (fun acc pr =>
      pr.2.moduleIds.foldl
        (fun acc2 modId =>
          match aget acc2 modId with
          | none => aset acc2 modId (setAdd [] pr.1)
          | some s => aset acc2 modId (setAdd s pr.1))
        acc)
    []

/-- Modules shared by two or more lazy chunks, with their chunk sets. -/
def sharedModulesOf (lazyChunks : List (String × Chunk)) :
    List (String × List String) :=
  (moduleCountsOf lazyChunks).filter (fun pr => pr.2.length ≥ 2)

/-- Grouping of shared modules keyed by the sorted joined chunk set; the
group value carries the member module ids and the chunk-id set snapshot of
the first member. -/
def groupsOf (lazyChunks : List (String × Chunk)) :
    List (String × (List String × List String)) :=
  (sharedModulesOf lazyChunks).foldl
    (fun acc pr =>
      let key := String.intercalate "|" (sortStrings pr.2)
      match aget acc key with
      | none => aset acc key (setAdd [] pr.1, pr.2)
      | some g => aset acc key (setAdd g.1 pr.1, g.2))
    []

/-- One shared chunk per group, named `shared_` + the derived id of the first
member of the group. -/
def sharedChunksOf (lazyChunks : List (String × Chunk)) :
    List (String × Chunk) :=
  (groupsOf lazyChunks).foldl
    (fun acc pr =>
      let firstModId := pr.2.1.headD ""
      let sharedChunkId := "shared_" ++ toChunkId firstModId
      aset acc sharedChunkId ⟨sharedChunkId, pr.2.1, none, pr.2.2⟩)
    []

/-- JS `splitSharedModules(lazyChunks)`: count, per module id, the set of lazy
chunks containing it; modules in two or more become shared and are grouped by
the sorted joined key of that chunk set; each group becomes one shared chunk
named after its first member; shared modules are finally filtered out of
every lazy chunk. -/
def splitSharedModules (lazyChunks : List (String × Chunk)) :
    List (String × Chunk) × List (String × Chunk) :=
  let sharedModules := sharedModulesOf lazyChunks
  if sharedModules.isEmpty then (lazyChunks, [])
  else
    let sharedChunks := sharedChunksOf lazyChunks
    let updatedLazyChunks : List (String × Chunk) :=
      lazyChunks.foldl
        (fun acc pr =>
          let filtered := pr.2.moduleIds.filter (fun m => (aget sharedModules m).isNone)
          aset acc pr.1 ⟨pr.2.id, filtered, pr.2.entryModuleId, pr.2.originalChunks⟩)
        []
    (updatedLazyChunks, sharedChunks)

/-- Step 4 of `identifyChunks`: per remaining lazy chunk, the needed chunk
list — the shared chunks whose original-chunk set contains it, in shared-chunk
creation order, then the chunk itself. -/
def chunkGroupMapOf (updatedLazyChunks sharedChunks : List (String × Chunk)) :
    List (String × List String) :=
  updatedLazyChunks.foldl
    (fun acc pr =>
      let neededChunks :=
        (sharedChunks.filter (fun sc => pr.1 ∈ sc.2.originalChunks)).map Prod.fst
      acc ++ [(pr.1, neededChunks ++ [pr.1])])
    []

/-- Output record of `identifyChunks`. -/
structure ChunkInfo where
  mainModuleIds : List String
  lazyChunks : List (String × Chunk)
  chunkGroupMap : List (String × List String)
  modules : List (String × ModuleInfo)
  dynamicEntryPoints : List (String × String)

/-- The module map keyed by module id (the `modules` Map of
`identifyChunks`). -/
def modulesOf (graph : List (String × ModuleInfo)) (root : String) :
    List (String × ModuleInfo) :=
  graph.foldl (fun acc pr => aset acc (toModuleId pr.1 root) pr.2) []

/-- The dynamic entry points: target module id mapped to derived chunk id. -/
def dynamicEntryPointsOf (modules : List (String × ModuleInfo)) (root : String) :
    List (String × String) :=
  modules.foldl
    (fun acc pr =>
      pr.2.dynamicImports.foldl
        (fun acc2 dyn =>
          match dyn.resolvedPath with
          | some rp =>
            let targetId := toModuleId rp root
            aset acc2 targetId (toChunkId targetId)
          | none => acc2)
        acc)
    []

/-- One lazy chunk per dynamic entry point, keyed by derived chunk id (a
collision between derived chunk ids silently overwrites). -/
def lazyChunksOf (modules : List (String × ModuleInfo)) (root : String)
    (mainModuleIds : List String) (deps : List (String × String)) :
    List (String × Chunk) :=
  deps.foldl
    (fun acc pr =>
      let chunkModuleIds := lazyBFS modules root mainModuleIds [] [pr.1]
      aset acc pr.2 ⟨pr.2, chunkModuleIds, some pr.1, []⟩)
    []

/-- The final chunk map: remaining lazy chunks merged with shared chunks. -/
def allLazyChunksOf (updatedLazyChunks sharedChunks : List (String × Chunk)) :
    List (String × Chunk) :=
  (updatedLazyChunks ++ sharedChunks).foldl (fun acc pr => aset acc pr.1 pr.2) []

/-- JS `identifyChunks(graph, entryPath, projectRoot)`. -/
def identifyChunks (graph : List (String × ModuleInfo)) (entryPath root : String) :
    ChunkInfo :=
  let entryModuleId := toModuleId entryPath root
  let modules := modulesOf graph root
  let mainModuleIds := mainBFS modules root [] [entryModuleId]
  let dynamicEntryPoints := dynamicEntryPointsOf modules root
  let lazyChunks := lazyChunksOf modules root mainModuleIds dynamicEntryPoints
  let (updatedLazyChunks, sharedChunks) := splitSharedModules lazyChunks
  let chunkGroupMap := chunkGroupMapOf updatedLazyChunks sharedChunks
  let allLazyChunks := allLazyChunksOf updatedLazyChunks sharedChunks
  ⟨mainModuleIds, allLazyChunks, chunkGroupMap, modules, dynamicEntryPoints⟩

/-! ## Code generator (code-generator source file)

Only the build-dependent content of each emitted file is modeled: the file
name and the ordered registry of `module_id : factory` entries it installs
(the surrounding runtime text is a build-independent constant).  A missing
module record for a registered id crashes generation in JS and is an error
here. -/

structure Bundle where
  filename : String
  factories : List (String × String)
deriving DecidableEq, Repr

def Bundle.moduleIds (b : Bundle) : List String :=
  b.factories.map Prod.fst

def factoriesFor (modules : List (String × ModuleInfo)) (root : String)
    (ids : List String) : Except String (List (String × String)) :=
  ids.mapM
    (fun mid => do
      match aget modules mid with
      | none => .error ("no module record for " ++ mid)
      | some info => do
        let t ← transformModule info root
        pure (mid, t.body))

/-- JS `generateBundles(chunkInfo, projectRoot)`: the main bundle first, then
one file per (lazy and shared) chunk, named `<chunk_id>.js`. -/
def generateBundles (ci : ChunkInfo) (root : String) : Except String (List Bundle) := do
  let mainFactories ← factoriesFor ci.modules root ci.mainModuleIds
  let lazyBundles ← ci.lazyChunks.mapM
    (fun pr => do
      let lfs ← factoriesFor ci.modules root pr.2.moduleIds
      pure (Bundle.mk (pr.1 ++ ".js") lfs))
  pure (Bundle.mk "main.js" mainFactories :: lazyBundles)

/-- The staged pipeline on one filesystem snapshot: graph construction, chunk
planning, transformation and bundle emission. -/
def runBundler (fs : List (String × ModuleInfo)) (entryPath root : String) :
    Except String (List Bundle) := do
  let graph ← buildDependencyGraph fs entryPath
  let ci := identifyChunks graph entryPath root
  generateBundles ci root

/-! ## Parser extraction (parser source file)

`parseModule` walks the acorn AST with four handlers (`ImportDeclaration`,
`ExportNamedDeclaration`, `ExportDefaultDeclaration`, `ImportExpression`) and
flattens what they match into the module record.  The embedding models the
stream of matched nodes, in walk order, as a statement list, and takes the
resolver as a function parameter (in JS the resolved path is attached by the
graph builder right after parsing). -/

inductive RawImportSpecifier where
  | defaultSpec (localName : String)
  | namespaceSpec (localName : String)
  | namedSpec (localName imported : String)
deriving DecidableEq, Repr

/-- The `spec.type` dispatch inside the `ImportDeclaration` handler. -/
def specOf : RawImportSpecifier → ImportSpecifier
  | .defaultSpec l => ⟨l, "default"⟩
  | .namespaceSpec l => ⟨l, "*"⟩
  | .namedSpec l i => ⟨l, i⟩

/-- The inline declaration carried by an `ExportNamedDeclaration`, when any:
the handler recognizes function, variable and class declarations. -/
inductive ExportDecl where
  | funcDecl (name : String) (declStart : Nat)
  | varDecl (names : List String) (declStart : Nat)
  | classDecl (name : String) (declStart : Nat)
deriving DecidableEq, Repr

/-- One AST node matched by a `parseModule` walker handler, in walk order. -/
inductive Stmt where
  | importDecl (source : String) (specifiers : List RawImportSpecifier)
      (start stop : Nat)
  | exportNamed (declaration : Option ExportDecl)
      (specifiers : List (String × String)) (source : Option String)
      (start stop : Nat)
  | exportDefault (isFunctionOrClassDecl : Bool) (start declStart : Nat)
      (declName : Option String)
  | importExpr (source : Option String) (start stop : Nat)
deriving DecidableEq, Repr

/-- Accumulator of the `parseModule` walk. -/
structure ParseAcc where
  imports : List ImportSite
  namedExports : List NamedExport
  defaultExport : Option DefaultExport
  dynamicImports : List DynamicImport
  importedBindings : List (String × Binding)
deriving DecidableEq, Repr

def parseStep (resolve : String → String) (acc : ParseAcc) : Stmt → ParseAcc
  | .importDecl source rawSpecs s e =>
    let specifiers := rawSpecs.map specOf
    let bindings := specifiers.foldl
      (fun b sp => aset b sp.localName ⟨source, sp.imported⟩) acc.importedBindings
    { acc with
      imports := acc.imports ++ [⟨source, specifiers, s, e, resolve source⟩]
      importedBindings := bindings }
  | .exportNamed declaration specifiers source s e =>
    let fromDecl : List NamedExport :=
      match declaration with
      | some (.funcDecl n ds) => [⟨n, n, s, e, some ds, none⟩]
      | some (.varDecl names ds) => names.map (fun n => ⟨n, n, s, e, some ds, none⟩)
      | some (.classDecl n ds) => [⟨n, n, s, e, some ds, none⟩]
      | none => []
    let fromSpecs : List NamedExport :=
      specifiers.map (fun sp => ⟨sp.1, sp.2, s, e, none, source⟩)
    { acc with namedExports := acc.namedExports ++ fromDecl ++ fromSpecs }
  | .exportDefault isDecl s ds declName =>
    { acc with
      defaultExport :=
        some ⟨s, ds, if isDecl then "declaration" else "expression", declName⟩ }
  | .importExpr source s e =>
    { acc with
      dynamicImports := acc.dynamicImports ++ [⟨source, s, e, source.map resolve⟩] }

/-- JS `parseModule(filePath)`: read and parse the file, run the walker, and
assemble the module record. -/
def parseModule (filePath src : String) (ast : Node) (stmts : List Stmt)
    (resolve : String → String) : ModuleInfo :=
  let acc := stmts.foldl (parseStep resolve) ⟨[], [], none, [], []⟩
  ⟨filePath, src, ast, acc.imports, acc.namedExports, acc.defaultExport,
    acc.dynamicImports, acc.importedBindings⟩

/-! ## Emitted runtime loader (generateMainBundle, CORE MODULE LOADER section)

The emitted `loadModule` checks the cache, otherwise creates `{exports: {}}`,
stores it in the cache, runs the factory with `(module, module.exports,
loadModule)`, and returns `module.exports`.  Factory bodies are modeled as
command sequences: nested `loadModule` calls and getter installations on the
exports object.  Execution is fuel-bounded; exhausted fuel returns the state
unchanged. -/

structure ModuleObj where
  exports : List String
deriving DecidableEq, Repr

structure LoaderState where
  cache : List (String × ModuleObj)
  trace : List String
deriving DecidableEq, Repr

inductive FCmd where
  | loadDep (id : String)
  | defineExport (key : String)
deriving DecidableEq, Repr

mutual

def loadModuleRun (registry : List (String × List FCmd)) (fuel : Nat)
    (st : LoaderState) (moduleId : String) : List String × LoaderState :=
  match fuel with
  | 0 => ([], st)
  | fuel1 + 1 =>
    match aget st.cache moduleId with
    | some cachedModule => (cachedModule.exports, st)
    | none =>
      let st1 : LoaderState :=
        ⟨aset st.cache moduleId ⟨[]⟩, st.trace ++ [moduleId]⟩
      let st2 := runFactory registry fuel1 ((aget registry moduleId).getD [])
        moduleId st1
      (((aget st2.cache moduleId).getD ⟨[]⟩).exports, st2)
termination_by (fuel, 0)

def runFactory (registry : List (String × List FCmd)) (fuel : Nat)
    (cmds : List FCmd) (selfId : String) (st : LoaderState) : LoaderState :=
  match cmds with
  | [] => st
  | c :: cs =>
    match c with
    | .loadDep dep =>
      runFactory registry fuel cs selfId (loadModuleRun registry fuel st dep).2
    | .defineExport k =>
      let cur := (aget st.cache selfId).getD ⟨[]⟩
      runFactory registry fuel cs selfId
        ⟨aset st.cache selfId ⟨cur.exports ++ [k]⟩, st.trace⟩
termination_by (fuel, cmds.length + 1)

end

/-- Invariant tying the loader's invocation trace to its cache: no id has
been invoked twice and every invoked id is cached. -/
@[reducible] def cacheTraceInv (st : LoaderState) : Prop :=
  st.trace.Nodup ∧ ∀ t ∈ st.trace, t ∈ akeys st.cache

/-- A two-module cyclic registry exercising the loader: `a` exports `x` and
then loads `b`, whose factory loads `a` back. -/
def regC7 : List (String × List FCmd) :=
  [("a", [FCmd.defineExport "x", FCmd.loadDep "b"]),
   ("b", [FCmd.loadDep "a"])]

/-- Candidate list in the order the specification gives it: `base`, `base.js`,
`base.json`, `base/index.js`. -/
def specCandidates (base : String) : List String :=
  [base, base ++ ".js", base ++ ".json", base ++ "/index.js"]

unseal buildGraphAux mainBFS lazyBFS loadModuleRun runFactory

/-- Placeholder AST for modules whose identifier structure is irrelevant to a
statement (an empty acorn `Program` node). -/
def leafAst : Node := .mk "Program" "" false 0 0 []

/-! ## Specification-side notion of a free reference (for claim C4)

These definitions do not come from the JS source: they render the words of
the specification ("an identifier occurrence is rewritten only when it is a
*free reference* to an imported name") so that the code behavior can be
compared against them. -/

/-- Names bound by hoisted declarations in a subtree: every identifier in the
`id` slot of a variable declarator and every function or class declaration
name. -/
def boundNamesIn (n : Node) : List String :=
  (identOccurrences none n).filterMap
    (fun oc =>
      match oc.1 with
      | some p =>
        if (p.kind == "VariableDeclarator" && p.role == "id")
            || ((p.kind == "FunctionDeclaration" || p.kind == "ClassDeclaration")
                && p.role == "id") then
          some oc.2.name
        else none
      | none => none)

/-- Every identifier name in a subtree (used for parameter patterns, whose
identifiers are all binders). -/
def allIdentNames (n : Node) : List String :=
  (identOccurrences none n).map (fun oc => oc.2.name)

/-! Modelled from the spec: `specFreeOccs` computes the identifier
occurrences `(start, name)` that are free references — not bound by an
enclosing function scope (parameters, the function name, hoisted declarations
of its body) nor by a program-level declaration. -/

mutual

def specFreeOccs (env : List String) : Node → List (Nat × String)
  | .mk kind nm comp s e children =>
    let here := if kind = "Identifier" ∧ nm ∉ env then [(s, nm)] else []
    let env1 :=
      if kind = "FunctionDeclaration" ∨ kind = "FunctionExpression"
          ∨ kind = "ArrowFunctionExpression" then
        env
          ++ ((children.filter (fun c => c.1 == "id" || c.1 == "param")).map
              (fun c => allIdentNames c.2)).flatten
          ++ boundNamesIn (Node.mk kind nm comp s e children)
      else if kind = "Program" then env ++ boundNamesIn (Node.mk kind nm comp s e children)
      else env
    here ++ specFreeOccsList env1 children

def specFreeOccsList (env : List String) : List (String × Node) → List (Nat × String)
  | [] => []
  | c :: cs => specFreeOccs env c.2 ++ specFreeOccsList env cs

end

/-! ## Concrete fixtures used by witnesses and counterexamples -/

/-- One-module snapshot: an entry with no imports at all. -/
def fsSingle : List (String × ModuleInfo) :=
  [("/p/index.js", ⟨"/p/index.js", "", leafAst, [], [], none, [], []⟩)]

/-- Module with two import declarations naming the same source `./m.js`. -/
def c1Info : ModuleInfo :=
  ⟨"/p/index.js",
   "import \x7b a \x7d from \"./m.js\";\nimport \x7b b \x7d from \"./m.js\";",
   leafAst,
   [⟨"./m.js", [⟨"a", "a"⟩], 0, 27, "/p/m.js"⟩,
    ⟨"./m.js", [⟨"b", "b"⟩], 28, 55, "/p/m.js"⟩],
   [], none, [],
   [("a", ⟨"./m.js", "a"⟩), ("b", ⟨"./m.js", "b"⟩)]⟩

/-- AST of `function g() \x7b var add = 1; add; \x7d`: the imported name
`add` is shadowed by a local `var` declaration inside `g`, and then used. -/
def c4Ast : Node :=
  .mk "Program" "" false 0 34
    [("body", .mk "FunctionDeclaration" "" false 0 34
        [("id", .mk "Identifier" "g" false 9 10 []),
         ("body", .mk "BlockStatement" "" false 13 34
            [("body", .mk "VariableDeclaration" "" false 15 27
                [("declaration", .mk "VariableDeclarator" "" false 19 26
                    [("id", .mk "Identifier" "add" false 19 22 []),
                     ("init", .mk "Literal" "" false 25 26 [])])]),
             ("body", .mk "ExpressionStatement" "" false 28 32
                [("expression", .mk "Identifier" "add" false 28 31 [])])])])]

/-- The skip contexts exactly as the specification lists them: a non-computed
object-literal key, a non-computed member-expression property, a variable
declarator binding name, a function or class declaration own name, a function
parameter, and a label identifier. -/
def specSkipContext (p : ParentCtx) : Prop :=
  (p.kind = "Property" ∧ p.role = "key" ∧ p.computed = false) ∨
  (p.kind = "MemberExpression" ∧ p.role = "property" ∧ p.computed = false) ∨
  (p.kind = "VariableDeclarator" ∧ p.role = "id") ∨
  ((p.kind = "FunctionDeclaration" ∨ p.kind = "ClassDeclaration") ∧ p.role = "id") ∨
  ((p.kind = "FunctionDeclaration" ∨ p.kind = "FunctionExpression"
      ∨ p.kind = "ArrowFunctionExpression") ∧ p.role = "param") ∨
  ((p.kind = "LabeledStatement" ∨ p.kind = "BreakStatement"
      ∨ p.kind = "ContinueStatement") ∧ p.role = "label")

/-- Module record carrying only graph structure (planner claims): import
sites with source specifier and resolved path, dynamic imports likewise. -/
def graphMod (p : String) (imps : List (String × String))
    (dyns : List (String × String)) : ModuleInfo :=
  ⟨p, "", leafAst,
    imps.map (fun pr => ⟨pr.1, [], 0, 0, pr.2⟩),
    [], none,
    dyns.map (fun pr => ⟨some pr.1, 0, 0, some pr.2⟩),
    []⟩

/-- Snapshot for C2: the entry dynamically imports `./x.js` and `./y.js`,
each of which statically imports `./z.js` and then `./a.js`. -/
def fsC2 : List (String × ModuleInfo) :=
  [("/p/index.js", graphMod "/p/index.js" []
      [("./x.js", "/p/x.js"), ("./y.js", "/p/y.js")]),
   ("/p/x.js", graphMod "/p/x.js" [("./z.js", "/p/z.js"), ("./a.js", "/p/a.js")] []),
   ("/p/y.js", graphMod "/p/y.js" [("./z.js", "/p/z.js"), ("./a.js", "/p/a.js")] []),
   ("/p/z.js", graphMod "/p/z.js" [] []),
   ("/p/a.js", graphMod "/p/a.js" [] [])]

def ciC2 : ChunkInfo :=
  identifyChunks ((buildDependencyGraph fsC2 "/p/index.js").toOption.getD [])
    "/p/index.js" "/p"

/-- The lazy chunks the planner computes for `fsC2` before shared-module
splitting (used to instantiate the amended C2 statement). -/
def lzC2 : List (String × Chunk) :=
  [("x_js", ⟨"x_js", ["./x.js", "./z.js", "./a.js"], some "./x.js", []⟩),
   ("y_js", ⟨"y_js", ["./y.js", "./z.js", "./a.js"], some "./y.js", []⟩)]

/-- Snapshot for C3: the entry dynamically imports `./l.js`, `./x.js`,
`./y.js`; `./l.js` imports `./z.js` and `./a.js`, `./x.js` imports `./z.js`,
`./y.js` imports `./a.js` — producing two shared chunks that both precede
`l_js` in its chunk group. -/
def fsC3 : List (String × ModuleInfo) :=
  [("/p/index.js", graphMod "/p/index.js" []
      [("./l.js", "/p/l.js"), ("./x.js", "/p/x.js"), ("./y.js", "/p/y.js")]),
   ("/p/l.js", graphMod "/p/l.js" [("./z.js", "/p/z.js"), ("./a.js", "/p/a.js")] []),
   ("/p/x.js", graphMod "/p/x.js" [("./z.js", "/p/z.js")] []),
   ("/p/y.js", graphMod "/p/y.js" [("./a.js", "/p/a.js")] []),
   ("/p/z.js", graphMod "/p/z.js" [] []),
   ("/p/a.js", graphMod "/p/a.js" [] [])]

def ciC3 : ChunkInfo :=
  identifyChunks ((buildDependencyGraph fsC3 "/p/index.js").toOption.getD [])
    "/p/index.js" "/p"

/-- Snapshot for C10: `/p/entry.js` consists of the single statement
`export \x7b x \x7d from "./m.js";` (a re-export with a from clause, offsets
0–27), parsed exactly as the parser embedding does; `/p/m.js` exists on
disk but is referenced by nothing else. -/
def entryInfoC10 : ModuleInfo :=
  parseModule "/p/entry.js" "export \x7b x \x7d from \"./m.js\";" leafAst
    [Stmt.exportNamed none [("x", "x")] (some "./m.js") 0 27]
    (fun _ => "/p/m.js")

def fsC10 : List (String × ModuleInfo) :=
  [("/p/entry.js", entryInfoC10),
   ("/p/m.js", graphMod "/p/m.js" [] [])]

/-- The transform result of the C10 entry module (total by construction). -/
def trC10 : TransformResult :=
  match transformModule entryInfoC10 "/p" with
  | .ok t => t
  | .error _ => ⟨[], [], [], ⟨"", []⟩, ""⟩

/-- The bundles emitted for the C10 snapshot (total by construction). -/
def bsC10 : List Bundle :=
  match runBundler fsC10 "/p/entry.js" "/p" with
  | .ok bs => bs
  | .error _ => []

/-- Snapshot for C6: the entry dynamically imports `./a/b.js` and `./a.b.js`,
whose derived chunk ids collide (`a_b_js`), so the second lazy chunk
overwrites the first. -/
def entryInfoC6 : ModuleInfo :=
  ⟨"/p/index.js", "import(\"./a/b.js\");\nimport(\"./a.b.js\");", leafAst, [], [], none,
    [⟨some "./a/b.js", 0, 18, some "/p/a/b.js"⟩,
     ⟨some "./a.b.js", 20, 38, some "/p/a.b.js"⟩],
    []⟩

def fsC6 : List (String × ModuleInfo) :=
  [("/p/index.js", entryInfoC6),
   ("/p/a/b.js", graphMod "/p/a/b.js" [] []),
   ("/p/a.b.js", graphMod "/p/a.b.js" [] [])]

/-- Witness snapshot for the amended C6 statement: like `fsC2` but with a
real entry source so the code generator succeeds; `./z.js` and `./a.js` are
shared by the two lazy chunks and split into one shared chunk. -/
def entryInfoC6W : ModuleInfo :=
  ⟨"/p/index.js", "import(\"./x.js\");\nimport(\"./y.js\");", leafAst, [], [], none,
    [⟨some "./x.js", 0, 16, some "/p/x.js"⟩,
     ⟨some "./y.js", 18, 34, some "/p/y.js"⟩],
    []⟩

def fsC6W : List (String × ModuleInfo) :=
  [("/p/index.js", entryInfoC6W),
   ("/p/x.js", graphMod "/p/x.js" [("./z.js", "/p/z.js"), ("./a.js", "/p/a.js")] []),
   ("/p/y.js", graphMod "/p/y.js" [("./z.js", "/p/z.js"), ("./a.js", "/p/a.js")] []),
   ("/p/z.js", graphMod "/p/z.js" [] []),
   ("/p/a.js", graphMod "/p/a.js" [] [])]

def graphC6W : List (String × ModuleInfo) :=
  (buildDependencyGraph fsC6W "/p/index.js").toOption.getD []

/-- The bundles emitted for the C6 witness snapshot (total by construction). -/
def bsC6W : List Bundle :=
  match generateBundles (identifyChunks graphC6W "/p/index.js" "/p") "/p" with
  | .ok bs => bs
  | .error _ => []

/-! ## Association-list lemmas shared by the claim proofs -/

theorem aget_aset {α : Type} (l : List (String × α)) (k k1 : String) (v : α) :
    aget (aset l k v) k1 = if k = k1 then some v else aget l k1 := by
  induction l with
  | nil => by_cases h : k = k1 <;> simp [aset, aget, h]
  | cons hd tl ih =>
    obtain ⟨k2, v2⟩ := hd
    by_cases h2 : k2 = k
    · subst h2
      by_cases h : k2 = k1 <;> simp [aset, aget, h]
    · by_cases h : k2 = k1
      · subst h
        have hne : ¬ k = k2 := fun he => h2 he.symm
        simp [aset, aget, h2, hne]
      · simp [aset, aget, h2, h, ih]

theorem akeys_aset_of_mem {α : Type} {l : List (String × α)} {k : String} (v : α)
    (h : k ∈ akeys l) : akeys (aset l k v) = akeys l := by
  induction l with
  | nil => simp [akeys] at h
  | cons hd tl ih =>
    obtain ⟨k2, v2⟩ := hd
    by_cases h2 : k2 = k
    · subst h2
      simp [aset, akeys]
    · simp only [akeys, List.map_cons, List.mem_cons] at h
      rcases h with h | h

      · exact absurd h.symm h2
      · simp [aset, akeys, h2]
        exact ih (by simpa [akeys] using h)

theorem akeys_aset_of_not_mem {α : Type} {l : List (String × α)} {k : String} (v : α)
    (h : k ∉ akeys l) : akeys (aset l k v) = akeys l ++ [k] := by
  induction l with
  | nil => simp [aset, akeys]
  | cons hd tl ih =>
    obtain ⟨k2, v2⟩ := hd
    simp only [akeys, List.map_cons, List.mem_cons] at h
    push_neg at h
    have h2 : k2 ≠ k := fun he => h.1 he.symm
    simp [aset, akeys, h2]
    exact ih (by simpa [akeys] using h.2)

theorem akeys_aset_nodup {α : Type} {l : List (String × α)} {k : String} (v : α)
    (h : (akeys l).Nodup) : (akeys (aset l k v)).Nodup := by
  by_cases hk : k ∈ akeys l
  · rw [akeys_aset_of_mem v hk]
    exact h
  · rw [akeys_aset_of_not_mem v hk]
    rw [List.nodup_append]
    exact ⟨h, List.nodup_singleton k, by simpa using hk⟩

/-! ## Claim C8: resolver candidate order and error behavior -/

theorem strAppendEmpty (s : String) : s ++ "" = s := by
  cases s with
  | mk data => show String.mk (data ++ []) = String.mk data; rw [List.append_nil]

/-- C8: a specifier that does not begin with `.` fails with a bare-specifier
error; otherwise the resolver probes `base`, `base.js`, `base.json`,
`base/index.js` in that order, returns the first existing regular file, and
when none exists fails with an unresolved-module error listing all four
candidates. -/
theorem resolver_candidates_in_order (fs : FileSystem) (specifier fromDir : String) :
    (strStarts specifier "." = false →
        resolveModule fs specifier fromDir = .error (.bareSpecifier specifier)) ∧
    (strStarts specifier "." = true →
      (let base := pathResolve fromDir specifier
       (fs.isFile base = true → resolveModule fs specifier fromDir = .ok base) ∧
       (fs.isFile base = false → fs.isFile (base ++ ".js") = true →
          resolveModule fs specifier fromDir = .ok (base ++ ".js")) ∧
       (fs.isFile base = false → fs.isFile (base ++ ".js") = false →
          fs.isFile (base ++ ".json") = true →
          resolveModule fs specifier fromDir = .ok (base ++ ".json")) ∧
       (fs.isFile base = false → fs.isFile (base ++ ".js") = false →
          fs.isFile (base ++ ".json") = false →
          fs.isFile (base ++ "/index.js") = true →
          resolveModule fs specifier fromDir = .ok (base ++ "/index.js")) ∧
       ((∀ c ∈ specCandidates base, fs.isFile c = false) →
          resolveModule fs specifier fromDir =
            .error (.unresolved specifier fromDir (specCandidates base))))) := by
  constructor
  · intro hb
    simp [resolveModule, hb]
  · intro hb
    have hb2 : ¬ strStarts specifier "." = false := by simp [hb]
    refine ⟨?_, ?_, ?_, ?_, ?_⟩
    · intro h0
      simp [resolveModule, hb, EXTENSIONS, List.find?, strAppendEmpty, h0]
    · intro h0 h1
      simp [resolveModule, hb, EXTENSIONS, List.find?, strAppendEmpty, h0, h1]
    · intro h0 h1 h2
      simp [resolveModule, hb, EXTENSIONS, List.find?, strAppendEmpty, h0, h1, h2]
    · intro h0 h1 h2 h3
      simp [resolveModule, hb, EXTENSIONS, List.find?, strAppendEmpty, h0, h1, h2, h3]
    · intro hall
      have h0 := hall (pathResolve fromDir specifier) (by simp [specCandidates])
      have h1 := hall (pathResolve fromDir specifier ++ ".js") (by simp [specCandidates])
      have h2 := hall (pathResolve fromDir specifier ++ ".json") (by simp [specCandidates])
      have h3 := hall (pathResolve fromDir specifier ++ "/index.js") (by simp [specCandidates])
      simp [resolveModule, hb, EXTENSIONS, List.find?, strAppendEmpty, h0, h1, h2, h3,
        specCandidates]

/-- Witness for C8 at a concrete filesystem: `./m` resolves to `/p/m.js`
because `/p/m` does not exist while `/p/m.js` does, and a bare specifier
fails. -/
theorem resolver_candidates_in_order_witness :
    strStarts "./m" "." = true ∧
    resolveModule ⟨["/p/m.js", "/p/m.json"]⟩ "./m" "/p" = .ok ("/p/m" ++ ".js") ∧
    resolveModule ⟨["/p/m.js"]⟩ "lodash" "/p" = .error (.bareSpecifier "lodash") := by
  refine ⟨by decide, ?_, ?_⟩
  · exact ((resolver_candidates_in_order ⟨["/p/m.js", "/p/m.json"]⟩ "./m" "/p").2
      (by decide)).2.1 (by decide) (by decide)
  · exact (resolver_candidates_in_order ⟨["/p/m.js"]⟩ "lodash" "/p").1 (by decide)

/-! ## Claim C9: pipeline determinism

Every stage of the embedding is a pure function of the filesystem snapshot,
the entry path and the project root — exactly as in the JS source, whose only
inputs are those values and whose iteration orders (`Map`, `Set`, object
keys) are the insertion orders the embedding fixes.  Determinism of the
emitted bytes is therefore equality of pipeline outputs on equal inputs. -/

/-- C9: two runs of the bundling pipeline on the same snapshot, entry path
and project root produce identical bundle lists (same file names, same
registered factories, same factory bodies). -/
theorem pipeline_deterministic (fs1 fs2 : List (String × ModuleInfo))
    (e1 e2 r1 r2 : String) (hfs : fs1 = fs2) (he : e1 = e2) (hr : r1 = r2) :
    runBundler fs1 e1 r1 = runBundler fs2 e2 r2 := by
  subst hfs
  subst he
  subst hr
  rfl

theorem pipeline_deterministic_witness :
    fsSingle = fsSingle ∧
    runBundler fsSingle "/p/index.js" "/p" = runBundler fsSingle "/p/index.js" "/p" :=
  ⟨rfl, pipeline_deterministic fsSingle fsSingle "/p/index.js" "/p/index.js" "/p" "/p"
    rfl rfl rfl⟩

/-! ## Claim C1: loadModule statements per import source -/

theorem buildModuleVarNames_values_aux (imports : List ImportSite)
    (acc : List (String × String))
    (hacc : ∀ k v, aget acc k = some v → v = makeVarName k) :
    ∀ k v,
      aget (imports.foldl
        (fun acc2 imp =>
          if (aget acc2 imp.source).isSome then acc2
          else aset acc2 imp.source (makeVarName imp.source)) acc) k = some v →
      v = makeVarName k := by
  induction imports generalizing acc with
  | nil => exact hacc
  | cons imp rest ih =>
    simp only [List.foldl_cons]
    apply ih
    intro k v hv
    by_cases hs : (aget acc imp.source).isSome
    · rw [if_pos hs] at hv
      exact hacc k v hv
    · rw [if_neg hs, aget_aset] at hv
      by_cases he : imp.source = k
      · rw [if_pos he] at hv
        rw [← he]
        exact (Option.some_inj.mp hv).symm
      · rw [if_neg he] at hv
        exact hacc k v hv

theorem buildModuleVarNames_values (imports : List ImportSite) :
    ∀ k v, aget (buildModuleVarNames imports) k = some v → v = makeVarName k := by
  apply buildModuleVarNames_values_aux
  intro k v hv
  simp [aget] at hv

theorem buildModuleVarNames_mono (imports : List ImportSite)
    (acc : List (String × String)) (k : String) (h : (aget acc k).isSome) :
    (aget (imports.foldl
      (fun acc2 imp =>
        if (aget acc2 imp.source).isSome then acc2
        else aset acc2 imp.source (makeVarName imp.source)) acc) k).isSome := by
  induction imports generalizing acc with
  | nil => exact h
  | cons imp rest ih =>
    simp only [List.foldl_cons]
    apply ih
    by_cases hs : (aget acc imp.source).isSome
    · rw [if_pos hs]
      exact h
    · rw [if_neg hs, aget_aset]
      by_cases he : imp.source = k
      · simp [he]
      · rw [if_neg he]
        exact h

theorem buildModuleVarNames_isSome_aux (imports : List ImportSite)
    (acc : List (String × String)) :
    ∀ imp ∈ imports,
      (aget (imports.foldl
        (fun acc2 imp2 =>
          if (aget acc2 imp2.source).isSome then acc2
          else aset acc2 imp2.source (makeVarName imp2.source)) acc) imp.source).isSome := by
  induction imports generalizing acc with
  | nil => intro imp h; simp at h
  | cons i rest ih =>
    intro imp hmem
    simp only [List.foldl_cons]
    rcases List.mem_cons.mp hmem with he | hr
    · subst he
      apply buildModuleVarNames_mono
      by_cases hs : (aget acc imp.source).isSome
      · rw [if_pos hs]
        exact hs
      · rw [if_neg hs, aget_aset]
        simp
    · exact ih _ imp hr

theorem buildModuleVarNames_aget (imports : List ImportSite) (imp : ImportSite)
    (h : imp ∈ imports) :
    aget (buildModuleVarNames imports) imp.source = some (makeVarName imp.source) := by
  have h1 := buildModuleVarNames_isSome_aux imports [] imp h
  obtain ⟨v, hv⟩ := Option.isSome_iff_exists.mp h1
  have h2 := buildModuleVarNames_values imports imp.source v hv
  rw [buildModuleVarNames] at *
  rw [hv, h2]

theorem buildModuleVarNames_keys_aux (imports : List ImportSite)
    (acc : List (String × String)) (hnd : (akeys acc).Nodup) :
    (akeys (imports.foldl
      (fun acc2 imp =>
        if (aget acc2 imp.source).isSome then acc2
        else aset acc2 imp.source (makeVarName imp.source)) acc)).Nodup ∧
    ∀ k, k ∈ akeys (imports.foldl
      (fun acc2 imp =>
        if (aget acc2 imp.source).isSome then acc2
        else aset acc2 imp.source (makeVarName imp.source)) acc) ↔
      (k ∈ akeys acc ∨ k ∈ imports.map ImportSite.source) := by
  induction imports generalizing acc with
  | nil => simpa using hnd
  | cons imp rest ih =>
    simp only [List.foldl_cons]
    by_cases hs : (aget acc imp.source).isSome
    · rw [if_pos hs]
      obtain ⟨hn, hiff⟩ := ih acc hnd
      refine ⟨hn, fun k => ?_⟩
      rw [hiff k]
      have hmem : imp.source ∈ akeys acc := mem_keys_of_aget_isSome hs
      constructor
      · rintro (h | h)
        · exact Or.inl h
        · rw [List.map_cons]
          exact Or.inr (List.mem_cons_of_mem _ h)
      · rintro (h | h)
        · exact Or.inl h
        · rw [List.map_cons, List.mem_cons] at h
          rcases h with he | hr2
          · exact Or.inl (he ▸ hmem)
          · exact Or.inr hr2
    · rw [if_neg hs]
      have hnotmem : imp.source ∉ akeys acc := fun hm => hs (aget_isSome_of_mem_keys hm)
      obtain ⟨hn, hiff⟩ := ih _ (akeys_aset_nodup _ hnd)
      refine ⟨hn, fun k => ?_⟩
      rw [hiff k, akeys_aset_of_not_mem _ hnotmem]
      simp only [List.mem_append, List.mem_singleton, List.map_cons, List.mem_cons]
      tauto

theorem processNamedExport_no_reexport (root filePath : String) (st : ExportState)
    (e : NamedExport) (st2 : ExportState) (he : e.reexportSource = none)
    (h : processNamedExport root filePath st e = .ok st2) :
    st2.varNames = st.varNames ∧ st2.loadCalls = st.loadCalls := by
  obtain ⟨lname, exported, ns, ne, declStart, reex⟩ := e
  simp only at he
  subst he
  cases declStart with
  | some dstart =>
    simp only [processNamedExport] at h
    cases hms : msRemove st.ms ns dstart with
    | error err => rw [hms] at h; simp [bind, Except.bind] at h
    | ok ms1 =>
      rw [hms] at h
      simp only [bind, Except.bind, Except.ok.injEq] at h
      rw [← h]
      exact ⟨rfl, rfl⟩
  | none =>
    simp only [processNamedExport] at h
    cases hms : msRemove st.ms ns ne with
    | error err => rw [hms] at h; simp [bind, Except.bind] at h
    | ok ms1 =>
      rw [hms] at h
      simp only [bind, Except.bind, Except.ok.injEq] at h
      rw [← h]
      exact ⟨rfl, rfl⟩

theorem processNamedExports_no_reexports (root filePath : String)
    (exps : List NamedExport) (hre : ∀ exp ∈ exps, exp.reexportSource = none) :
    ∀ st st1, exps.foldlM (processNamedExport root filePath) st = .ok st1 →
      st1.varNames = st.varNames ∧ st1.loadCalls = st.loadCalls := by
  induction exps with
  | nil =>
    intro st st1 h
    simp only [List.foldlM_nil, pure, Except.pure, Except.ok.injEq] at h
    rw [h]
    exact ⟨rfl, rfl⟩
  | cons e rest ih =>
    intro st st1 h
    simp only [List.foldlM_cons] at h
    cases hstep : processNamedExport root filePath st e with
    | error err => rw [hstep] at h; simp [Except.bind, bind] at h
    | ok st2 =>
      rw [hstep] at h
      simp only [bind, Except.bind] at h
      have hrest := ih (fun exp hm => hre exp (List.mem_cons_of_mem _ hm)) st2 st1 h
      have he : e.reexportSource = none := hre e (List.mem_cons_self _ _)
      have hstate := processNamedExport_no_reexport root filePath st e st2 he hstep
      exact ⟨hrest.1.trans hstate.1, hrest.2.trans hstate.2⟩

/-- C1 (amended): the transformer emits one `var <name> = loadModule(...)`
statement per import declaration — so a source named by several import
declarations is loaded by that many identical statements — while the module
variable name is generated once per distinct import source and shared by all
of them. -/
theorem loadModule_call_per_import_declaration (info : ModuleInfo) (root : String)
    (hre : ∀ exp ∈ info.namedExports, exp.reexportSource = none) :
    (∀ t, transformModule info root = .ok t →
        t.loadModuleCalls =
          info.imports.map (loadModuleCallFor (buildModuleVarNames info.imports) root)) ∧
    (info.imports.map (loadModuleCallFor (buildModuleVarNames info.imports) root)).length
        = info.imports.length ∧
    (∀ imp ∈ info.imports,
        loadModuleCallFor (buildModuleVarNames info.imports) root imp =
          (let varName := makeVarName imp.source
           let moduleId := toModuleId imp.resolvedPath root
           s!"var {varName} = loadModule(\"{moduleId}\");")) ∧
    (akeys (buildModuleVarNames info.imports)).Nodup ∧
    (∀ k, k ∈ akeys (buildModuleVarNames info.imports) ↔
        k ∈ info.imports.map ImportSite.source) := by
  refine ⟨?_, by simp, ?_, ?_, ?_⟩
  · intro t ht
    have hcalls := processNamedExports_no_reexports root info.filePath info.namedExports
      (by exact hre)
    rw [transformModule] at ht
    cases hms1 : removeImports ⟨info.src, []⟩ info.imports with
    | error e => rw [hms1] at ht; simp [bind, Except.bind] at ht
    | ok ms1 =>
      rw [hms1] at ht
      simp only [bind, Except.bind] at ht
      cases hst1 : info.namedExports.foldlM (processNamedExport root info.filePath)
        (ExportState.mk ms1 (buildModuleVarNames info.imports)
          (info.imports.map (loadModuleCallFor (buildModuleVarNames info.imports) root)) []) with
      | error e => rw [hst1] at ht; simp [bind, Except.bind] at ht
      | ok st1 =>
        rw [hst1] at ht
        simp only [bind, Except.bind] at ht
        obtain ⟨hv, hc⟩ := hcalls _ _ hst1
        cases hdef : processDefaultExport st1.ms st1.getters info.defaultExport with
        | error e => rw [hdef] at ht; simp [bind, Except.bind] at ht
        | ok pr =>
          rw [hdef] at ht
          obtain ⟨ms2, getters⟩ := pr
          simp only [bind, Except.bind] at ht
          cases hms3 : (sortReplacementsDesc
              (collectReplacements info.importedBindings st1.varNames info.ast)).foldlM
              (fun acc r => msOverwrite acc r.1 r.2.1 r.2.2) ms2 with
          | error e => rw [hms3] at ht; simp [bind, Except.bind] at ht
          | ok ms3 =>
            rw [hms3] at ht
            simp only [bind, Except.bind] at ht
            cases hms4 : rewriteDynamicImports root ms3 info.dynamicImports with
            | error e => rw [hms4] at ht; simp [bind, Except.bind] at ht
            | ok ms4 =>
              rw [hms4] at ht
              simp only [bind, Except.bind, pure, Except.pure, Except.ok.injEq] at ht
              rw [← ht]
              exact hc
  · intro imp hmem
    simp only [loadModuleCallFor, buildModuleVarNames_aget info.imports imp hmem,
      Option.getD_some]
  · exact (buildModuleVarNames_keys_aux info.imports [] (by simp [akeys])).1
  · intro k
    have h := (buildModuleVarNames_keys_aux info.imports [] (by simp [akeys])).2 k
    rw [buildModuleVarNames]
    rw [h]
    simp [akeys]

/-- C1 counterexample: a module with two import declarations naming the same
source `./m.js` gets the statement `var _m_ = loadModule("./m.js");` twice in
its factory body, not once, even though it has a single distinct import
source (the variable name itself is shared). -/
theorem loadModule_call_duplicate_source_cex :
    (transformModule c1Info "/p").map (fun t => t.loadModuleCalls) =
      .ok ["var _m_ = loadModule(\"./m.js\");", "var _m_ = loadModule(\"./m.js\");"] ∧
    (transformModule c1Info "/p").map (fun t => t.body) =
      .ok ("loadModule.markAsESModule(exports);\n\nvar _m_ = loadModule(\"./m.js\");\nvar _m_ = loadModule(\"./m.js\");\n\n") ∧
    c1Info.imports.map ImportSite.source = ["./m.js", "./m.js"] ∧
    ["var _m_ = loadModule(\"./m.js\");", "var _m_ = loadModule(\"./m.js\");"].count
        "var _m_ = loadModule(\"./m.js\");" = 2 := by
  exact ⟨by decide, by decide, by decide, by decide⟩

theorem loadModule_call_per_import_declaration_witness :
    (∀ exp ∈ c1Info.namedExports, exp.reexportSource = none) ∧
    ((∀ t, transformModule c1Info "/p" = .ok t →
        t.loadModuleCalls =
          c1Info.imports.map (loadModuleCallFor (buildModuleVarNames c1Info.imports) "/p")) ∧
     (c1Info.imports.map (loadModuleCallFor (buildModuleVarNames c1Info.imports) "/p")).length
        = c1Info.imports.length ∧
     (∀ imp ∈ c1Info.imports,
        loadModuleCallFor (buildModuleVarNames c1Info.imports) "/p" imp =
          (let varName := makeVarName imp.source
           let moduleId := toModuleId imp.resolvedPath "/p"
           s!"var {varName} = loadModule(\"{moduleId}\");")) ∧
     (akeys (buildModuleVarNames c1Info.imports)).Nodup ∧
     (∀ k, k ∈ akeys (buildModuleVarNames c1Info.imports) ↔
        k ∈ c1Info.imports.map ImportSite.source)) :=
  ⟨fun exp h => absurd h (by simp [c1Info]),
   loadModule_call_per_import_declaration c1Info "/p"
     (fun exp h => absurd h (by simp [c1Info]))⟩

/-! ## Claim C5: anonymous and expression default exports -/

theorem editOverlapPred_false {s e : Nat} (ed : Nat × Nat × String)
    (h2 : ¬ (ed.1 < e ∧ s < ed.2.1)) :
    ((decide (ed.1 < e) && decide (s < ed.2.1)) && !(ed.1 == s && ed.2.1 == e)) = false := by
  by_cases ha : ed.1 < e
  · by_cases hb : s < ed.2.1
    · exact absurd ⟨ha, hb⟩ h2
    · simp [hb]
  · simp [ha]

theorem editExactPred_false {s e : Nat} (h : s < e) (ed : Nat × Nat × String)
    (h2 : ¬ (ed.1 < e ∧ s < ed.2.1)) :
    (ed.1 == s && ed.2.1 == e) = false := by
  by_cases ha : ed.1 = s
  · by_cases hb : ed.2.1 = e
    · exact absurd ⟨by rw [ha]; exact h, by rw [hb]; exact h⟩ h2
    · simp [hb]
  · simp [ha]

theorem mapExact_keep {s e : Nat} {txt : String} (h : s < e)
    (l : List (Nat × Nat × String))
    (hclear : ∀ ed ∈ l, ¬ (ed.1 < e ∧ s < ed.2.1)) :
    l.map (fun ed => if ed.1 = s ∧ ed.2.1 = e then (s, e, txt) else ed) = l := by
  induction l with
  | nil => rfl
  | cons ed rest ih =>
    simp only [List.map_cons, List.cons.injEq]
    constructor
    · rw [if_neg]
      intro hc
      exact hclear ed (List.mem_cons_self _ _) ⟨by rw [hc.1]; exact h, by rw [hc.2]; exact h⟩
    · exact ih (fun x hx => hclear x (List.mem_cons_of_mem _ hx))

theorem msOverwrite_fresh (ms : MagicStr) (s e : Nat) (txt : String) (h : s < e)
    (hclear : ∀ ed ∈ ms.edits, ¬ (ed.1 < e ∧ s < ed.2.1)) :
    msOverwrite ms s e txt = .ok ⟨ms.src, ms.edits ++ [(s, e, txt)]⟩ := by
  have h1 : (ms.edits.any fun ed =>
      (decide (ed.1 < e) && decide (s < ed.2.1)) && !(ed.1 == s && ed.2.1 == e)) = false :=
    List.any_eq_false.mpr (fun ed hed => by
      rw [editOverlapPred_false ed (hclear ed hed)]
      simp)
  have h2 : (ms.edits.any fun ed => ed.1 == s && ed.2.1 == e) = false :=
    List.any_eq_false.mpr (fun ed hed => by
      rw [editExactPred_false h ed (hclear ed hed)]
      simp)
  rw [msOverwrite, if_neg (not_le.mpr h), msEdit, h1, h2]
  simp

theorem msRemove_fresh (ms : MagicStr) (s e : Nat) (h : s < e)
    (hclear : ∀ ed ∈ ms.edits, ¬ (ed.1 < e ∧ s < ed.2.1)) :
    msRemove ms s e = .ok ⟨ms.src, ms.edits ++ [(s, e, "")]⟩ := by
  have h1 : (ms.edits.any fun ed =>
      (decide (ed.1 < e) && decide (s < ed.2.1)) && !(ed.1 == s && ed.2.1 == e)) = false :=
    List.any_eq_false.mpr (fun ed hed => by
      rw [editOverlapPred_false ed (hclear ed hed)]
      simp)
  have h2 : (ms.edits.any fun ed => ed.1 == s && ed.2.1 == e) = false :=
    List.any_eq_false.mpr (fun ed hed => by
      rw [editExactPred_false h ed (hclear ed hed)]
      simp)
  rw [msRemove, if_neg (Nat.ne_of_lt h), if_neg (not_lt.mpr (le_of_lt h)), msEdit, h1, h2]
  simp

/-- Re-editing the exact range that was just removed succeeds and replaces the
removed content (MagicString allows repeat edits of one chunk). -/
theorem msOverwrite_after_remove (ms : MagicStr) (s e : Nat) (txt : String) (h : s < e)
    (hclear : ∀ ed ∈ ms.edits, ¬ (ed.1 < e ∧ s < ed.2.1)) :
    msOverwrite ⟨ms.src, ms.edits ++ [(s, e, "")]⟩ s e txt =
      .ok ⟨ms.src, ms.edits ++ [(s, e, txt)]⟩ := by
  have h1 : ((ms.edits ++ [(s, e, "")]).any fun ed =>
      (decide (ed.1 < e) && decide (s < ed.2.1)) && !(ed.1 == s && ed.2.1 == e)) = false := by
    rw [List.any_eq_false]
    intro ed hed
    rcases List.mem_append.mp hed with hold | hnew
    · rw [editOverlapPred_false ed (hclear ed hold)]
      simp
    · have hed2 : ed = (s, e, "") := by simpa using hnew
      subst hed2
      simp
  have h2 : ((ms.edits ++ [(s, e, "")]).any fun ed => ed.1 == s && ed.2.1 == e) = true := by
    rw [List.any_eq_true]
    exact ⟨(s, e, ""), by simp, by simp⟩
  rw [msOverwrite, if_neg (not_le.mpr h), msEdit, h1, h2]
  simp only [Bool.false_eq_true, if_false, if_true, Except.ok.injEq, MagicStr.mk.injEq,
    true_and, List.map_append]
  rw [mapExact_keep h ms.edits hclear]
  simp

/-- C5: when the default export is an anonymous function or class declaration
or an expression, the default-export handling of the transformer overwrites
the `export default ` prefix range with `var __default_export__ = ` without
error (the anonymous-declaration path removes the range first and then
re-edits it, which MagicString permits), and the emitted default getter
targets `__default_export__`. -/
theorem default_export_anonymous_overwrite (ms : MagicStr)
    (getters : List (String × String)) (d : DefaultExport)
    (hkind : d.declType = "expression" ∨
      (d.declType = "declaration" ∧ d.declName = none))
    (hrange : d.nodeStart < d.declStart)
    (hclear : ∀ ed ∈ ms.edits, ¬ (ed.1 < d.declStart ∧ d.nodeStart < ed.2.1)) :
    processDefaultExport ms getters (some d) =
      .ok (⟨ms.src, ms.edits ++ [(d.nodeStart, d.declStart, "var __default_export__ = ")]⟩,
        getters ++ [("default", "() => __default_export__")]) := by
  obtain ⟨ns, ds, dt, dn⟩ := d
  simp only at hrange hclear
  rcases hkind with hk | ⟨hk, hn⟩
  · simp only at hk
    subst hk
    rw [processDefaultExport]
    simp only [if_neg (by decide : ¬ ("expression" : String) = "declaration")]
    rw [msOverwrite_fresh ms ns ds _ hrange hclear]
    simp [bind, Except.bind, pure, Except.pure]
  · simp only at hk hn
    subst hk
    subst hn
    rw [processDefaultExport]
    simp only [if_pos rfl]
    rw [msRemove_fresh ms ns ds hrange hclear]
    simp only [bind, Except.bind]
    rw [msOverwrite_after_remove ms ns ds _ hrange hclear]
    simp [bind, Except.bind, pure, Except.pure]

/-- Witness for C5: a concrete `export default ` prefix at range `[0, 15)` on
a fresh patch buffer, for the expression form. -/
theorem default_export_anonymous_overwrite_witness :
    (("expression" : String) = "expression" ∨
      (("expression" : String) = "declaration" ∧ (none : Option String) = none)) ∧
    (0 : Nat) < 15 ∧
    processDefaultExport ⟨"export default 42;", []⟩ [] (some ⟨0, 15, "expression", none⟩) =
      .ok (⟨"export default 42;", [(0, 15, "var __default_export__ = ")]⟩,
        [("default", "() => __default_export__")]) :=
  ⟨Or.inl rfl, by decide,
    default_export_anonymous_overwrite ⟨"export default 42;", []⟩ [] ⟨0, 15, "expression", none⟩
      (Or.inl rfl) (by decide) (fun ed hed => absurd hed (by simp))⟩

/-! ## Claim C4: identifier-rewrite contexts -/

/-- C4 counterexample: the occurrence of `add` inside
`function g() \x7b var add = 1; add; \x7d` is a bound (shadowed) reference —
it is not among the free occurrences — yet the transformer rewrites it to
`_m_.add`, because the rewrite decision looks only at the immediate parent
context. -/
theorem ident_rewrite_shadowed_cex :
    collectReplacements [("add", ⟨"./m.js", "add"⟩)] [("./m.js", "_m_")] c4Ast
      = [(28, 31, "_m_.add")] ∧
    ¬ (28, "add") ∈ specFreeOccs [] c4Ast ∧
    specFreeOccs [] c4Ast = [] := by
  refine ⟨by decide, by decide, by decide⟩

theorem identCallback_eq_some_inv (bindings : List (String × Binding))
    (varNames : List (String × String)) (ctx : Option ParentCtx) (n : Node)
    (r : Nat × Nat × String)
    (h : identCallback bindings varNames ctx n = some r) :
    skipIdent ctx = false ∧ (aget bindings n.name).isSome := by
  unfold identCallback at h
  cases hb : aget bindings n.name with
  | none => rw [hb] at h; simp at h
  | some binding =>
    rw [hb] at h
    dsimp only at h
    by_cases hs : skipIdent ctx = true
    · rw [if_pos hs] at h
      simp at h
    · exact ⟨by simpa using hs, by simp⟩

/-- C4 (amended): the rewrite decision is a function of the immediate parent
context alone.  Every context the specification lists is skipped: a
non-computed object-literal key, a non-computed member-expression property, a
variable declarator binding name, a function or class declaration own name, a
direct function parameter, and a label identifier.  Every recorded
replacement comes from an identifier occurrence whose name is an imported
binding and whose parent context is not skipped — no scope information
(shadowing) is consulted, so locally bound occurrences in non-skipped
contexts are rewritten as well. -/
theorem ident_rewrite_parent_context_only (bindings : List (String × Binding))
    (varNames : List (String × String)) (ast : Node) :
    (∀ p : ParentCtx, ∀ n : Node, specSkipContext p →
      identCallback bindings varNames (some p) n = none) ∧
    (∀ ctx : Option ParentCtx, ∀ n : Node, ∀ b : Binding, ∀ v : String,
      aget bindings n.name = some b → aget varNames b.modulePath = some v →
      skipIdent ctx = false → (identCallback bindings varNames ctx n).isSome) ∧
    (∀ r ∈ collectReplacements bindings varNames ast,
      ∃ oc ∈ identOccurrences none ast,
        identCallback bindings varNames oc.1 oc.2 = some r ∧
        skipIdent oc.1 = false ∧ (aget bindings oc.2.name).isSome) := by
  refine ⟨?_, ?_, ?_⟩
  · intro p n hctx
    obtain ⟨pk, pr, pc⟩ := p
    have hskip : skipIdent (some ⟨pk, pr, pc⟩) = true := by
      rcases hctx with ⟨h1, h2, h3⟩ | ⟨h1, h2, h3⟩ | ⟨h1, h2⟩ | ⟨h1, h2⟩ | ⟨h1, h2⟩ | ⟨h1, h2⟩
      · simp only at h1 h2 h3
        subst h1; subst h2; subst h3
        decide
      · simp only at h1 h2 h3
        subst h1; subst h2; subst h3
        decide
      · simp only at h1 h2
        subst h1; subst h2
        cases pc <;> decide
      · simp only at h2
        subst h2
        rcases h1 with h1 | h1 <;> (simp only at h1; subst h1; cases pc <;> decide)
      · simp only at h2
        subst h2
        rcases h1 with h1 | h1 | h1 <;> (simp only at h1; subst h1; cases pc <;> decide)
      · simp only at h2
        subst h2
        rcases h1 with h1 | h1 | h1 <;> (simp only at h1; subst h1; cases pc <;> decide)
    unfold identCallback
    cases hb : aget bindings n.name with
    | none => rfl
    | some binding =>
      dsimp only
      rw [if_pos hskip]
  · intro ctx n b v hb hv hs
    unfold identCallback
    rw [hb]
    dsimp only
    rw [if_neg (by simp [hs]), hv]
    simp
  · intro r hr
    rw [collectReplacements] at hr
    obtain ⟨oc, hmem, heq⟩ := List.mem_filterMap.mp hr
    exact ⟨oc, hmem, heq, identCallback_eq_some_inv _ _ _ _ _ heq⟩

theorem ident_rewrite_parent_context_only_witness :
    specSkipContext ⟨"VariableDeclarator", "id", false⟩ ∧
    identCallback [("add", ⟨"./m.js", "add"⟩)] [("./m.js", "_m_")]
        (some ⟨"VariableDeclarator", "id", false⟩)
        (Node.mk "Identifier" "add" false 19 22 []) = none :=
  ⟨Or.inr (Or.inr (Or.inl ⟨rfl, rfl⟩)),
   (ident_rewrite_parent_context_only [("add", ⟨"./m.js", "add"⟩)] [("./m.js", "_m_")]
      c4Ast).1 ⟨"VariableDeclarator", "id", false⟩ (Node.mk "Identifier" "add" false 19 22 [])
      (Or.inr (Or.inr (Or.inl ⟨rfl, rfl⟩)))⟩

/-! ## Claim C2: shared-chunk naming -/

/-- C2 counterexample: in the `fsC2` build the single shared chunk has
members `./z.js, ./a.js` in discovery order and is named `shared_z_js` after
the first discovered member, whereas the lexicographically first member is
`./a.js`, whose derived name `shared_a_js` is not used. -/
theorem shared_chunk_name_not_sorted_cex :
    (aget ciC2.lazyChunks "shared_z_js").map Chunk.moduleIds
      = some ["./z.js", "./a.js"] ∧
    sortStrings ["./z.js", "./a.js"] = ["./a.js", "./z.js"] ∧
    "shared_" ++ toChunkId "./a.js" = "shared_a_js" ∧
    aget ciC2.lazyChunks "shared_a_js" = none ∧
    (ciC2.lazyChunks.filter (fun pr => strStarts pr.1 "shared_")).map Prod.fst
      = ["shared_z_js"] := by
  refine ⟨by decide, by decide, by decide, by decide, by decide⟩

theorem mem_aset {α : Type} {l : List (String × α)} {k : String} {v : α}
    {pr : String × α} (h : pr ∈ aset l k v) : pr = (k, v) ∨ pr ∈ l := by
  induction l with
  | nil => simpa [aset] using h
  | cons hd tl ih =>
    obtain ⟨k1, v1⟩ := hd
    by_cases he : k1 = k
    · subst he
      simp only [aset, if_true, eq_self_iff_true, List.mem_cons] at h
      rcases h with h | h
      · exact Or.inl h
      · exact Or.inr (List.mem_cons_of_mem _ h)
    · simp only [aset, if_neg he, List.mem_cons] at h
      rcases h with h | h
      · exact Or.inr (h ▸ List.mem_cons_self _ _)
      · rcases ih h with h2 | h2
        · exact Or.inl h2
        · exact Or.inr (List.mem_cons_of_mem _ h2)

theorem foldl_keys_nodup {α β : Type} (step : List (String × α) → β → List (String × α))
    (hstep : ∀ acc x, (akeys acc).Nodup → (akeys (step acc x)).Nodup) :
    ∀ (l : List β) (acc : List (String × α)), (akeys acc).Nodup →
      (akeys (l.foldl step acc)).Nodup := by
  intro l
  induction l with
  | nil => intro acc h; exact h
  | cons x xs ih => intro acc h; exact ih _ (hstep acc x h)

theorem moduleCountsOf_keys_nodup (lz : List (String × Chunk)) :
    (akeys (moduleCountsOf lz)).Nodup := by
  rw [moduleCountsOf]
  apply foldl_keys_nodup
  · intro acc pr hacc
    apply foldl_keys_nodup
    · intro acc2 modId hacc2
      cases aget acc2 modId with
      | none => exact akeys_aset_nodup _ hacc2
      | some v => exact akeys_aset_nodup _ hacc2
    · exact hacc
  · simp [akeys]

theorem sharedModulesOf_keys_nodup (lz : List (String × Chunk)) :
    (akeys (sharedModulesOf lz)).Nodup := by
  have h1 : List.Sublist (akeys (sharedModulesOf lz)) (akeys (moduleCountsOf lz)) :=
    List.Sublist.map Prod.fst (List.filter_sublist _)
  exact (moduleCountsOf_keys_nodup lz).sublist h1

/-- Invariant of the grouping fold: every group is nonempty and its members,
in order, form a sublist of the shared-module keys already processed. -/
theorem groupsFold_inv (todo : List (String × List String))
    (processed : List String)
    (acc : List (String × (List String × List String)))
    (hacc : ∀ pr ∈ acc, pr.2.1 ≠ [] ∧ List.Sublist pr.2.1 processed)
    (hdisju : ∀ k ∈ akeys todo, k ∉ processed)
    (hnd : (akeys todo).Nodup) :
    ∀ pr ∈ todo.foldl
      (fun acc2 pr =>
        let key := String.intercalate "|" (sortStrings pr.2)
        match aget acc2 key with
        | none => aset acc2 key (setAdd [] pr.1, pr.2)
        | some g => aset acc2 key (setAdd g.1 pr.1, g.2)) acc,
      pr.2.1 ≠ [] ∧ List.Sublist pr.2.1 (processed ++ akeys todo) := by
  induction todo generalizing processed acc with
  | nil =>
    intro pr hpr
    simpa [akeys] using hacc pr hpr
  | cons x rest ih =>
    intro pr hpr
    simp only [List.foldl_cons] at hpr
    have hx : x.1 ∉ processed := hdisju x.1 (by simp [akeys])
    have hacc2 : ∀ pr2 ∈ (match aget acc (String.intercalate "|" (sortStrings x.2)) with
        | none => aset acc (String.intercalate "|" (sortStrings x.2)) (setAdd [] x.1, x.2)
        | some g => aset acc (String.intercalate "|" (sortStrings x.2)) (setAdd g.1 x.1, g.2)),
        pr2.2.1 ≠ [] ∧ List.Sublist pr2.2.1 (processed ++ [x.1]) := by
      intro pr2 hpr2
      cases hg : aget acc (String.intercalate "|" (sortStrings x.2)) with
      | none =>
        rw [hg] at hpr2
        rcases mem_aset hpr2 with he | hm
        · rw [he]
          constructor
          · simp [setAdd]
          · simp [setAdd]
        · obtain ⟨h1, h2⟩ := hacc pr2 hm
          exact ⟨h1, h2.trans (List.sublist_append_left _ _)⟩
      | some g =>
        rw [hg] at hpr2
        rcases mem_aset hpr2 with he | hm
        · rw [he]
          have hgacc := hacc _ (aget_mem hg)
          have hnotin : x.1 ∉ g.1 := fun hmem =>
            hx (hgacc.2.subset hmem)
          constructor
          · simp only [setAdd, if_neg hnotin]
            simp
          · simp only [setAdd, if_neg hnotin]
            exact List.Sublist.append hgacc.2 (List.Sublist.refl _)
        · obtain ⟨h1, h2⟩ := hacc pr2 hm
          exact ⟨h1, h2.trans (List.sublist_append_left _ _)⟩
    have hndc : (x.1 :: akeys rest).Nodup := by
      have : akeys (x :: rest) = x.1 :: akeys rest := by simp [akeys]
      rw [this] at hnd
      exact hnd
    have hx1 : x.1 ∉ akeys rest := (List.nodup_cons.mp hndc).1
    have hnd2 : (akeys rest).Nodup := (List.nodup_cons.mp hndc).2
    have hdisju2 : ∀ k ∈ akeys rest, k ∉ processed ++ [x.1] := by
      intro k hk
      simp only [List.mem_append, List.mem_singleton]
      push_neg
      constructor
      · have hk2 : k ∈ akeys (x :: rest) := by
          simp only [akeys, List.map_cons, List.mem_cons]
          exact Or.inr (by simpa [akeys] using hk)
        exact hdisju k hk2
      · intro he
        subst he
        exact hx1 hk
    have hres := ih (processed ++ [x.1]) _ hacc2 hdisju2 hnd2 pr hpr
    refine ⟨hres.1, ?_⟩
    have : processed ++ [x.1] ++ akeys rest = processed ++ akeys (x :: rest) := by
      simp [akeys]
    rw [← this]
    exact hres.2

theorem sharedChunksOf_mem (lz : List (String × Chunk)) :
    ∀ pr ∈ sharedChunksOf lz, ∃ g ∈ groupsOf lz,
      pr = ("shared_" ++ toChunkId (g.2.1.headD ""),
        ⟨"shared_" ++ toChunkId (g.2.1.headD ""), g.2.1, none, g.2.2⟩) := by
  rw [sharedChunksOf]
  have main : ∀ (gs : List (String × (List String × List String)))
      (acc : List (String × Chunk)),
      ∀ pr ∈ gs.foldl
        (fun acc2 pr =>
          let firstModId := pr.2.1.headD ""
          let sharedChunkId := "shared_" ++ toChunkId firstModId
          aset acc2 sharedChunkId ⟨sharedChunkId, pr.2.1, none, pr.2.2⟩) acc,
        (∃ g ∈ gs, pr = ("shared_" ++ toChunkId (g.2.1.headD ""),
          ⟨"shared_" ++ toChunkId (g.2.1.headD ""), g.2.1, none, g.2.2⟩)) ∨ pr ∈ acc := by
    intro gs
    induction gs with
    | nil => intro acc pr hpr; exact Or.inr hpr
    | cons g rest ih =>
      intro acc pr hpr
      simp only [List.foldl_cons] at hpr
      rcases ih _ pr hpr with ⟨g2, hg2, he2⟩ | hm
      · exact Or.inl ⟨g2, List.mem_cons_of_mem _ hg2, he2⟩
      · rcases mem_aset hm with he | hm2
        · exact Or.inl ⟨g, List.mem_cons_self _ _, he⟩
        · exact Or.inr hm2
  intro pr hpr
  rcases main (groupsOf lz) [] pr hpr with hres | hres
  · exact hres
  · exact absurd hres (by simp)

/-- C2 (amended): every shared chunk the planner produces is named
`shared_` + the derived chunk id of its first member in discovery order (the
order shared modules are first encountered while scanning the lazy chunks),
and its member list is, in that order, a sublist of the discovery-ordered
shared-module list — so the first member is the earliest-discovered one, not
the lexicographically first. -/
theorem shared_chunk_named_after_first_discovered (lz : List (String × Chunk)) :
    ∀ pr ∈ (splitSharedModules lz).2,
      ∃ m ms, pr.2.moduleIds = m :: ms ∧
        pr.1 = "shared_" ++ toChunkId m ∧ pr.2.id = pr.1 ∧
        List.Sublist (m :: ms) (akeys (sharedModulesOf lz)) := by
  intro pr hpr
  rw [splitSharedModules] at hpr
  by_cases he : (sharedModulesOf lz).isEmpty
  · rw [if_pos he] at hpr
    simp at hpr
  · rw [if_neg he] at hpr
    simp only at hpr
    obtain ⟨g, hg, hpr2⟩ := sharedChunksOf_mem lz pr hpr
    have hinv := groupsFold_inv (sharedModulesOf lz) [] []
      (fun pr2 hpr2 => absurd hpr2 (by simp))
      (fun k _ => by simp)
      (sharedModulesOf_keys_nodup lz) g (by rw [groupsOf] at hg; exact hg)
    obtain ⟨hne, hsub⟩ := hinv
    obtain ⟨m, ms, hm⟩ := List.exists_cons_of_ne_nil hne
    refine ⟨m, ms, ?_, ?_, ?_, ?_⟩
    · rw [hpr2]
      exact hm
    · rw [hpr2, hm]
      simp
    · rw [hpr2, hm]
    · rw [← hm]
      simpa using hsub

theorem shared_chunk_named_after_first_discovered_witness :
    ("shared_z_js",
      (⟨"shared_z_js", ["./z.js", "./a.js"], none, ["x_js", "y_js"]⟩ : Chunk))
        ∈ (splitSharedModules lzC2).2 ∧
    (∃ m ms,
      (⟨"shared_z_js", ["./z.js", "./a.js"], none, ["x_js", "y_js"]⟩ : Chunk).moduleIds
          = m :: ms ∧
        "shared_z_js" = "shared_" ++ toChunkId m ∧
        (⟨"shared_z_js", ["./z.js", "./a.js"], none, ["x_js", "y_js"]⟩ : Chunk).id
          = "shared_z_js" ∧
        List.Sublist (m :: ms) (akeys (sharedModulesOf lzC2))) :=
  ⟨by decide,
   shared_chunk_named_after_first_discovered lzC2
     ("shared_z_js", ⟨"shared_z_js", ["./z.js", "./a.js"], none, ["x_js", "y_js"]⟩)
     (by decide)⟩

/-! ## Claim C3: chunk-group ordering -/

/-- C3 counterexample: in the `fsC3` build the chunk group of `l_js` lists its
two shared chunks as `shared_z_js, shared_a_js` — shared-chunk creation order —
whereas shared-chunk-id (sorted) order would put `shared_a_js` first. -/
theorem chunk_group_not_id_sorted_cex :
    aget ciC3.chunkGroupMap "l_js" = some ["shared_z_js", "shared_a_js", "l_js"] ∧
    sortStrings ["shared_z_js", "shared_a_js"] = ["shared_a_js", "shared_z_js"] ∧
    (["shared_z_js", "shared_a_js", "l_js"] : List String)
      ≠ ["shared_a_js", "shared_z_js", "l_js"] := by
  refine ⟨by decide, by decide, by decide⟩

theorem foldl_concat_map {α β : Type} (f : α → β) :
    ∀ (l : List α) (acc : List β),
      l.foldl (fun a x => a ++ [f x]) acc = acc ++ l.map f := by
  intro l
  induction l with
  | nil => intro acc; simp
  | cons x xs ih => intro acc; simp [ih]

theorem aget_map_key {α β : Type} (g : String × α → β) :
    ∀ (l : List (String × α)) (pr : String × α), (akeys l).Nodup → pr ∈ l →
      aget (l.map (fun q => (q.1, g q))) pr.1 = some (g pr) := by
  intro l
  induction l with
  | nil => intro pr _ hm; simp at hm
  | cons hd tl ih =>
    intro pr hnd hm
    have hndc : hd.1 ∉ akeys tl ∧ (akeys tl).Nodup := by
      have he : akeys (hd :: tl) = hd.1 :: akeys tl := by simp [akeys]
      rw [he] at hnd
      exact ⟨(List.nodup_cons.mp hnd).1, (List.nodup_cons.mp hnd).2⟩
    rcases List.mem_cons.mp hm with he | hm2
    · subst he
      simp [aget]
    · have hne : hd.1 ≠ pr.1 := by
        intro he
        exact hndc.1 (he ▸ (List.mem_map.mpr ⟨pr, hm2, rfl⟩))
      simp only [List.map_cons, aget, if_neg hne]
      exact ih pr hndc.2 hm2

/-- C3 (amended): for every remaining lazy chunk, its chunk-group entry is the
ids of the shared chunks whose original-chunk set contains it — kept in
shared-chunk creation order, i.e. the order of the shared-chunk list, not
sorted by chunk id — followed by the chunk's own id as the last element. -/
theorem chunk_group_shared_prefix_creation_order
    (ulz sh : List (String × Chunk)) (hnd : (akeys ulz).Nodup) :
    ∀ pr ∈ ulz,
      aget (chunkGroupMapOf ulz sh) pr.1 =
        some ((sh.filter (fun sc => pr.1 ∈ sc.2.originalChunks)).map Prod.fst
          ++ [pr.1]) ∧
      ((sh.filter (fun sc => pr.1 ∈ sc.2.originalChunks)).map Prod.fst
          ++ [pr.1]).getLast? = some pr.1 ∧
      List.Sublist
        ((sh.filter (fun sc => pr.1 ∈ sc.2.originalChunks)).map Prod.fst)
        (akeys sh) := by
  intro pr hm
  refine ⟨?_, List.getLast?_concat _, List.Sublist.map Prod.fst (List.filter_sublist _)⟩
  have hmap : chunkGroupMapOf ulz sh
      = ulz.map (fun q => (q.1,
          (sh.filter (fun sc => q.1 ∈ sc.2.originalChunks)).map Prod.fst ++ [q.1])) := by
    rw [chunkGroupMapOf]
    exact (foldl_concat_map _ ulz []).trans (List.nil_append _)
  rw [hmap]
  exact aget_map_key
    (fun q => (sh.filter (fun sc => q.1 ∈ sc.2.originalChunks)).map Prod.fst ++ [q.1])
    ulz pr hnd hm

theorem chunk_group_shared_prefix_creation_order_witness :
    (akeys [("l_js", (⟨"l_js", ["./l.js"], some "./l.js", []⟩ : Chunk))]).Nodup ∧
    aget (chunkGroupMapOf
        [("l_js", ⟨"l_js", ["./l.js"], some "./l.js", []⟩)]
        [("shared_z_js", ⟨"shared_z_js", ["./z.js"], none, ["l_js"]⟩),
         ("shared_a_js", ⟨"shared_a_js", ["./a.js"], none, ["l_js"]⟩)]) "l_js"
      = some ["shared_z_js", "shared_a_js", "l_js"] :=
  ⟨by decide,
   (chunk_group_shared_prefix_creation_order
      [("l_js", ⟨"l_js", ["./l.js"], some "./l.js", []⟩)]
      [("shared_z_js", ⟨"shared_z_js", ["./z.js"], none, ["l_js"]⟩),
       ("shared_a_js", ⟨"shared_a_js", ["./a.js"], none, ["l_js"]⟩)]
      (by decide)
      ("l_js", ⟨"l_js", ["./l.js"], some "./l.js", []⟩)
      (by decide)).1⟩

/-! ## Claim C7: the emitted module loader -/

theorem mem_akeys_aset {α : Type} {l : List (String × α)} {k : String}
    (k2 : String) (v : α) (h : k ∈ akeys l) : k ∈ akeys (aset l k2 v) := by
  by_cases h2 : k2 ∈ akeys l
  · rw [akeys_aset_of_mem v h2]
    exact h
  · rw [akeys_aset_of_not_mem v h2]
    exact List.mem_append_left _ h

theorem mem_akeys_aset_self {α : Type} (l : List (String × α)) (k : String)
    (v : α) : k ∈ akeys (aset l k v) := by
  by_cases h : k ∈ akeys l
  · rw [akeys_aset_of_mem v h]
    exact h
  · rw [akeys_aset_of_not_mem v h]
    exact List.mem_append_right _ (List.mem_singleton_self k)

theorem runFactory_inv (registry : List (String × List FCmd)) (fuel : Nat)
    (hL : ∀ st id, cacheTraceInv st →
      cacheTraceInv (loadModuleRun registry fuel st id).2) :
    ∀ (cmds : List FCmd) (selfId : String) (st : LoaderState),
      cacheTraceInv st → cacheTraceInv (runFactory registry fuel cmds selfId st) := by
  intro cmds
  induction cmds with
  | nil =>
    intro selfId st h
    rw [runFactory.eq_def]
    exact h
  | cons c cs ih =>
    intro selfId st h
    cases c with
    | loadDep dep =>
      rw [runFactory.eq_def]
      show cacheTraceInv
        (runFactory registry fuel cs selfId (loadModuleRun registry fuel st dep).2)
      exact ih selfId _ (hL st dep h)
    | defineExport k =>
      rw [runFactory.eq_def]
      show cacheTraceInv (runFactory registry fuel cs selfId
        ⟨aset st.cache selfId ⟨((aget st.cache selfId).getD ⟨[]⟩).exports ++ [k]⟩,
          st.trace⟩)
      exact ih selfId _ ⟨h.1, fun t ht => mem_akeys_aset _ _ (h.2 t ht)⟩

theorem loadModuleRun_inv (registry : List (String × List FCmd)) :
    ∀ (fuel : Nat) (st : LoaderState) (id : String),
      cacheTraceInv st → cacheTraceInv (loadModuleRun registry fuel st id).2 := by
  intro fuel
  induction fuel with
  | zero =>
    intro st id h
    rw [loadModuleRun.eq_def]
    exact h
  | succ fuel ih =>
    intro st id h
    rw [loadModuleRun.eq_def]
    cases hc : aget st.cache id with
    | some m => exact h
    | none =>
      have hid : id ∉ st.trace := by
        intro hmem
        have hk := h.2 id hmem
        have := aget_isSome_of_mem_keys hk
        rw [hc] at this
        simp at this
      have h1 : cacheTraceInv ⟨aset st.cache id ⟨[]⟩, st.trace ++ [id]⟩ := by
        constructor
        · rw [List.nodup_append]
          refine ⟨h.1, List.nodup_singleton id, ?_⟩
          intro a ha hb
          rw [List.mem_singleton] at hb
          subst hb
          exact hid ha
        · intro t ht
          rcases List.mem_append.mp ht with h2 | h2
          · exact mem_akeys_aset _ _ (h.2 t h2)
          · rw [List.mem_singleton] at h2
            subst h2
            exact mem_akeys_aset_self _ _ _
      exact runFactory_inv registry fuel ih _ _ _ h1

/-- C7: on a cache hit the emitted loader returns the cached module's exports
and leaves the state (hence the invocation trace) unchanged, invoking no
factory; on a miss it caches a fresh module with empty exports and records
the invocation *before* running the module's factory on that updated state,
and returns the exports found in the cache after the factory ran; under the
trace-cache invariant the invocation trace never repeats a module id — every
factory runs at most once. -/
theorem loader_cache_insert_before_invoke_once
    (registry : List (String × List FCmd)) (fuel : Nat) (st : LoaderState)
    (moduleId : String) :
    (∀ m, aget st.cache moduleId = some m →
      loadModuleRun registry (fuel + 1) st moduleId = (m.exports, st)) ∧
    (aget st.cache moduleId = none →
      aget (aset st.cache moduleId ⟨[]⟩) moduleId = some ⟨[]⟩ ∧
      (loadModuleRun registry (fuel + 1) st moduleId).2 =
        runFactory registry fuel ((aget registry moduleId).getD []) moduleId
          ⟨aset st.cache moduleId ⟨[]⟩, st.trace ++ [moduleId]⟩ ∧
      (loadModuleRun registry (fuel + 1) st moduleId).1 =
        ((aget (runFactory registry fuel ((aget registry moduleId).getD []) moduleId
            ⟨aset st.cache moduleId ⟨[]⟩, st.trace ++ [moduleId]⟩).cache
          moduleId).getD ⟨[]⟩).exports) ∧
    (cacheTraceInv st →
      (loadModuleRun registry (fuel + 1) st moduleId).2.trace.Nodup) := by
  refine ⟨?_, ?_, ?_⟩
  · intro m hc
    rw [loadModuleRun.eq_def, hc]
  · intro hc
    refine ⟨?_, ?_, ?_⟩
    · rw [aget_aset]
      simp
    · rw [loadModuleRun.eq_def, hc]
    · rw [loadModuleRun.eq_def, hc]
  · intro h
    exact (loadModuleRun_inv registry (fuel + 1) st moduleId h).1

theorem loader_cache_insert_before_invoke_once_witness :
    aget [("c", (⟨["y"]⟩ : ModuleObj))] "c" = some ⟨["y"]⟩ ∧
    loadModuleRun regC7 6 ⟨[("c", ⟨["y"]⟩)], []⟩ "c"
      = (["y"], ⟨[("c", ⟨["y"]⟩)], []⟩) ∧
    aget ([] : List (String × ModuleObj)) "a" = none ∧
    cacheTraceInv ⟨[], []⟩ ∧
    aget (aset ([] : List (String × ModuleObj)) "a" ⟨[]⟩) "a" = some ⟨[]⟩ ∧
    (loadModuleRun regC7 6 ⟨[], []⟩ "a").2
      = runFactory regC7 5 ((aget regC7 "a").getD []) "a"
          ⟨aset [] "a" ⟨[]⟩, [] ++ ["a"]⟩ ∧
    (loadModuleRun regC7 6 ⟨[], []⟩ "a").1
      = ((aget (runFactory regC7 5 ((aget regC7 "a").getD []) "a"
          ⟨aset [] "a" ⟨[]⟩, [] ++ ["a"]⟩).cache "a").getD ⟨[]⟩).exports ∧
    (loadModuleRun regC7 6 ⟨[], []⟩ "a").2.trace.Nodup :=
  ⟨by decide,
   (loader_cache_insert_before_invoke_once regC7 5 ⟨[("c", ⟨["y"]⟩)], []⟩ "c").1
     ⟨["y"]⟩ (by decide),
   by decide,
   by decide,
   ((loader_cache_insert_before_invoke_once regC7 5 ⟨[], []⟩ "a").2.1 (by decide)).1,
   ((loader_cache_insert_before_invoke_once regC7 5 ⟨[], []⟩ "a").2.1 (by decide)).2.1,
   ((loader_cache_insert_before_invoke_once regC7 5 ⟨[], []⟩ "a").2.1 (by decide)).2.2,
   (loader_cache_insert_before_invoke_once regC7 5 ⟨[], []⟩ "a").2.2 (by decide)⟩

/-! ## Claim C10: re-exports with a from clause are never visited -/

theorem transform_single_reexport (info : ModuleInfo) (root l x q : String)
    (s e : Nat) (himp : info.imports = [])
    (hexp : info.namedExports = [⟨l, x, s, e, none, some q⟩]) :
    ∀ tr, transformModule info root = .ok tr →
      tr.loadModuleCalls =
        [s!"var {makeVarName q} = loadModule(\"{toModuleId (pathResolve (pathDirname info.filePath) q) root}\");"] := by
  intro tr ht
  rw [transformModule, himp, hexp] at ht
  simp only [buildModuleVarNames, List.foldl_nil, List.map_nil, removeImports,
    List.foldlM_nil, List.foldlM_cons, pure, Except.pure, bind, Except.bind] at ht
  simp only [processNamedExport] at ht
  simp only [aget, Option.isSome_none, Bool.false_eq_true, if_false] at ht
  cases hms : msRemove ⟨info.src, []⟩ s e with
  | error err =>
    rw [hms] at ht
    simp [bind, Except.bind] at ht
  | ok ms1 =>
    rw [hms] at ht
    simp only [bind, Except.bind] at ht
    split at ht
    · simp at ht
    · split at ht
      · simp at ht
      · split at ht
        · simp at ht
        · injection ht with hh
          rw [← hh]
          simp

/-- C10: a module whose only statement is a re-export with a from clause gets
an empty import list (and no dynamic imports) from the parser, every named
export it produces carries the re-export source; a module with no imports and
no dynamic imports yields a one-node dependency graph, so the re-exported
file is never visited; yet the transformer still emits a `loadModule` call
naming the re-exported module id.  On the `fsC10` snapshot the target
`/p/m.js` exists on disk, the entry factory contains
`var _m_ = loadModule("./m.js");`, and no emitted bundle registers a factory
under `./m.js`. -/
theorem reexport_from_clause_unvisited_hole :
    (∀ (fp src : String) (ast : Node) (resolve : String → String) (q : String)
        (specs : List (String × String)) (s e : Nat),
      (parseModule fp src ast [Stmt.exportNamed none specs (some q) s e]
          resolve).imports = [] ∧
      (parseModule fp src ast [Stmt.exportNamed none specs (some q) s e]
          resolve).dynamicImports = [] ∧
      ∀ ex ∈ (parseModule fp src ast [Stmt.exportNamed none specs (some q) s e]
          resolve).namedExports, ex.reexportSource = some q) ∧
    (∀ (fs : List (String × ModuleInfo)) (entry : String) (info : ModuleInfo),
      aget fs entry = some info → info.imports = [] → info.dynamicImports = [] →
      buildDependencyGraph fs entry = .ok [(entry, info)]) ∧
    (∀ (info : ModuleInfo) (root l x q : String) (s e : Nat),
      info.imports = [] → info.namedExports = [⟨l, x, s, e, none, some q⟩] →
      ∀ tr, transformModule info root = .ok tr →
        tr.loadModuleCalls =
          [s!"var {makeVarName q} = loadModule(\"{toModuleId (pathResolve (pathDirname info.filePath) q) root}\");"]) ∧
    (aget fsC10 "/p/m.js").isSome = true ∧
    Except.map TransformResult.loadModuleCalls (transformModule entryInfoC10 "/p")
      = .ok ["var _m_ = loadModule(\"./m.js\");"] ∧
    (∀ bs, runBundler fsC10 "/p/entry.js" "/p" = .ok bs →
      bs ≠ [] ∧ ∀ b ∈ bs, "./m.js" ∉ b.moduleIds) := by
  refine ⟨?_, ?_, transform_single_reexport, by decide, by decide, ?_⟩
  · intro fp src ast resolve q specs s e
    refine ⟨rfl, rfl, ?_⟩
    intro ex hex
    simp only [parseModule, parseStep, List.foldl_cons, List.foldl_nil] at hex
    simp only [List.nil_append] at hex
    rcases List.mem_map.mp hex with ⟨sp, _, hsp⟩
    rw [← hsp]
  · intro fs entry info h1 himp hdyn
    rw [buildDependencyGraph, buildGraphAux.eq_def]
    simp only [aget, Option.isSome_none, Bool.false_eq_true, dite_false]
    split
    · simp_all
    · rename_i info2 heq
      rw [h1] at heq
      injection heq with heq2
      subst heq2
      have hdeps : graphDeps info = [] := by
        simp [graphDeps, himp, hdyn]
      rw [hdeps]
      simp only [List.filter_nil, List.nil_append, List.append_nil]
      rw [buildGraphAux.eq_def]
  · intro bs h
    have hrun : Except.map (fun (bl : List Bundle) => bl.map Bundle.moduleIds)
        (runBundler fsC10 "/p/entry.js" "/p") = Except.ok [["./entry.js"]] := by decide
    rw [h] at hrun
    simp only [Except.map] at hrun
    injection hrun with hmap
    constructor
    · intro hnil
      rw [hnil] at hmap
      simp at hmap
    · intro b hb hmid
      have hmm : b.moduleIds ∈ bs.map Bundle.moduleIds := List.mem_map_of_mem _ hb
      rw [hmap] at hmm
      simp only [List.mem_singleton] at hmm
      rw [hmm] at hmid
      exact absurd hmid (by decide)

theorem reexport_from_clause_unvisited_hole_witness :
    (parseModule "/p/entry.js" "export \x7b x \x7d from \"./m.js\";" leafAst
        [Stmt.exportNamed none [("x", "x")] (some "./m.js") 0 27]
        (fun _ => "/p/m.js")).imports = [] ∧
    buildDependencyGraph fsC10 "/p/entry.js" = .ok [("/p/entry.js", entryInfoC10)] ∧
    trC10.loadModuleCalls = ["var _m_ = loadModule(\"./m.js\");"] ∧
    bsC10 ≠ [] ∧
    "./m.js" ∉ (bsC10.headD ⟨"", []⟩).moduleIds :=
  ⟨(reexport_from_clause_unvisited_hole.1 "/p/entry.js"
      "export \x7b x \x7d from \"./m.js\";" leafAst (fun _ => "/p/m.js") "./m.js"
      [("x", "x")] 0 27).1,
   reexport_from_clause_unvisited_hole.2.1 fsC10 "/p/entry.js" entryInfoC10 rfl rfl rfl,
   reexport_from_clause_unvisited_hole.2.2.1 entryInfoC10 "/p" "x" "x" "./m.js" 0 27
     rfl rfl trC10 rfl,
   (reexport_from_clause_unvisited_hole.2.2.2.2.2 bsC10 rfl).1,
   (reexport_from_clause_unvisited_hole.2.2.2.2.2 bsC10 rfl).2 (bsC10.headD ⟨"", []⟩)
     (by decide)⟩

/-! ## Claim C6: one factory per reached module -/

/-- C6 counterexample: in the `fsC6` snapshot both dynamic-import targets are
reached during graph construction, but their derived chunk ids collide at
`a_b_js`, the second lazy chunk overwrites the first in the chunk map, and the
emitted bundles register no factory at all under `./a/b.js`. -/
theorem chunk_id_collision_drops_module_cex :
    Except.map akeys (buildDependencyGraph fsC6 "/p/index.js")
      = .ok ["/p/index.js", "/p/a/b.js", "/p/a.b.js"] ∧
    toModuleId "/p/a/b.js" "/p" = "./a/b.js" ∧
    toChunkId "./a/b.js" = "a_b_js" ∧
    toChunkId "./a.b.js" = "a_b_js" ∧
    Except.map (fun (bs : List Bundle) => bs.map Bundle.moduleIds)
        (runBundler fsC6 "/p/index.js" "/p")
      = .ok [["./index.js"], ["./a.b.js"]] ∧
    "./a/b.js" ∉ (["./index.js"] : List String) ∧
    "./a/b.js" ∉ (["./a.b.js"] : List String) := by
  refine ⟨by decide, by decide, by decide, by decide, by decide, by decide, by decide⟩

theorem string_append_cancel_left {s t u : String} (h : s ++ t = s ++ u) : t = u := by
  have h2 := congrArg String.data h
  simp only [String.data_append] at h2
  exact String.ext (List.append_cancel_left h2)

theorem aset_fresh {α : Type} {l : List (String × α)} {k : String} (v : α)
    (h : k ∉ akeys l) : aset l k v = l ++ [(k, v)] := by
  induction l with
  | nil => rfl
  | cons hd tl ih =>
    obtain ⟨k1, v1⟩ := hd
    have hcons : akeys ((k1, v1) :: tl) = k1 :: akeys tl := by simp [akeys]
    rw [hcons] at h
    have hne : k1 ≠ k := fun he => h (he ▸ List.mem_cons_self _ _)
    have htl : k ∉ akeys tl := fun hm => h (List.mem_cons_of_mem _ hm)
    simp only [aset, if_neg hne]
    rw [ih htl]
    simp

theorem aget_of_mem_nodup {α : Type} :
    ∀ {l : List (String × α)}, (akeys l).Nodup →
      ∀ {pr : String × α}, pr ∈ l → aget l pr.1 = some pr.2 := by
  intro l
  induction l with
  | nil => intro _ pr h; simp at h
  | cons hd tl ih =>
    intro hnd pr h
    have hndc : hd.1 ∉ akeys tl ∧ (akeys tl).Nodup := by
      have he : akeys (hd :: tl) = hd.1 :: akeys tl := by simp [akeys]
      rw [he] at hnd
      exact ⟨(List.nodup_cons.mp hnd).1, (List.nodup_cons.mp hnd).2⟩
    rcases List.mem_cons.mp h with he | hm
    · subst he
      simp [aget]
    · have hne : hd.1 ≠ pr.1 := by
        intro he
        exact hndc.1 (he ▸ (List.mem_map.mpr ⟨pr, hm, rfl⟩))
      obtain ⟨k1, v1⟩ := hd
      simp only [aget, if_neg hne]
      exact ih hndc.2 hm

theorem foldl_aset_map2 {α β : Type} (kf : α → String) (vf : α → β) :
    ∀ (l : List α) (acc : List (String × β)),
      (l.map kf).Nodup → (∀ x ∈ l, kf x ∉ akeys acc) →
      l.foldl (fun acc2 x => aset acc2 (kf x) (vf x)) acc
        = acc ++ l.map (fun x => (kf x, vf x)) := by
  intro l
  induction l with
  | nil => intro acc _ _; simp
  | cons x xs ih =>
    intro acc hnd hfresh
    simp only [List.foldl_cons, List.map_cons]
    rw [aset_fresh (vf x) (hfresh x (List.mem_cons_self _ _))]
    have hnd2 : (xs.map kf).Nodup := (List.nodup_cons.mp (by simpa using hnd)).2
    have hx : kf x ∉ xs.map kf := (List.nodup_cons.mp (by simpa using hnd)).1
    rw [ih (acc ++ [(kf x, vf x)]) hnd2 ?_]
    · simp
    · intro y hy
      have h1 : kf y ∉ akeys acc := hfresh y (List.mem_cons_of_mem _ hy)
      have h2 : kf y ≠ kf x := by
        intro he
        exact hx (he ▸ List.mem_map.mpr ⟨y, hy, rfl⟩)
      simp only [akeys, List.map_append, List.mem_append]
      rintro (hm | hm)
      · exact h1 hm
      · simp only [List.map_cons, List.map_nil, List.mem_singleton] at hm
        exact h2 hm

theorem sum_map_zero {α : Type} (l : List α) (f : α → Nat)
    (h : ∀ y ∈ l, f y = 0) : (l.map f).sum = 0 := by
  induction l with
  | nil => rfl
  | cons x xs ih =>
    simp only [List.map_cons, List.sum_cons, h x (List.mem_cons_self _ _),
      ih (fun y hy => h y (List.mem_cons_of_mem _ hy))]

theorem sum_map_one {α : Type} (l : List α) (f : α → Nat) (x : α)
    (hnd : l.Nodup) (hx : x ∈ l) (hfx : f x = 1)
    (hothers : ∀ y ∈ l, y ≠ x → f y = 0) : (l.map f).sum = 1 := by
  induction l with
  | nil => simp at hx
  | cons hd tl ih =>
    have hhd : hd ∉ tl := (List.nodup_cons.mp hnd).1
    have htl : tl.Nodup := (List.nodup_cons.mp hnd).2
    rcases List.mem_cons.mp hx with he | hm
    · subst he
      simp only [List.map_cons, List.sum_cons, hfx]
      rw [sum_map_zero tl f ?_]
      intro y hy
      exact hothers y (List.mem_cons_of_mem _ hy) (fun he => hhd (he ▸ hy))
    · have hne : hd ≠ x := fun he => hhd (he ▸ hm)
      simp only [List.map_cons, List.sum_cons,
        hothers hd (List.mem_cons_self _ _) hne]
      rw [ih htl hm (fun y hy hne2 => hothers y (List.mem_cons_of_mem _ hy) hne2)]

theorem mem_setAdd_self (l : List String) (x : String) : x ∈ setAdd l x := by
  by_cases h : x ∈ l <;> simp [setAdd, h]

theorem setAdd_of_mem {l : List String} {x : String} (h : x ∈ l) :
    setAdd l x = l := by
  simp [setAdd, h]

theorem setAdd_of_not_mem {l : List String} {x : String} (h : x ∉ l) :
    setAdd l x = l ++ [x] := by
  simp [setAdd, h]

theorem setAdd_idem (l : List String) (x : String) :
    setAdd (setAdd l x) x = setAdd l x :=
  setAdd_of_mem (mem_setAdd_self l x)

theorem mem_setAdd {l : List String} {x y : String} :
    y ∈ setAdd l x ↔ y ∈ l ∨ y = x := by
  by_cases h : x ∈ l
  · rw [setAdd_of_mem h]
    constructor
    · exact Or.inl
    · rintro (h2 | rfl)
      · exact h2
      · exact h
  · rw [setAdd_of_not_mem h]
    simp

theorem lazyBFS_inv (modules : List (String × ModuleInfo)) (root : String)
    (mainIds : List String) :
    ∀ (visited queue : List String), visited.Nodup →
      (∀ v ∈ visited, v ∉ mainIds) →
      ((lazyBFS modules root mainIds visited queue).Nodup ∧
       ∀ v ∈ lazyBFS modules root mainIds visited queue, v ∉ mainIds) := by
  intro visited queue
  induction visited, queue using lazyBFS.induct modules root mainIds with
  | case1 visited =>
    intro h1 h2
    rw [lazyBFS.eq_def]
    exact ⟨h1, h2⟩
  | case2 visited modId rest hv ih =>
    intro h1 h2
    rw [lazyBFS.eq_def]
    simp only [dif_pos hv]
    exact ih h1 h2
  | case3 visited modId rest hv visited1 deps ih =>
    intro h1 h2
    rw [lazyBFS.eq_def]
    simp only [dif_neg hv]
    push_neg at hv
    refine ih ?_ ?_
    · rw [List.nodup_append]
      exact ⟨h1, List.nodup_singleton _, fun a ha hb => by
        rw [List.mem_singleton] at hb
        subst hb
        exact hv.1 ha⟩
    · intro v hvm
      rcases List.mem_append.mp hvm with h | h
      · exact h2 v h
      · rw [List.mem_singleton] at h
        subst h
        exact hv.2

theorem mainBFS_nodup (modules : List (String × ModuleInfo)) (root : String) :
    ∀ (visited queue : List String), visited.Nodup →
      (mainBFS modules root visited queue).Nodup := by
  intro visited queue
  induction visited, queue using mainBFS.induct modules root with
  | case1 visited =>
    intro h1
    rw [mainBFS.eq_def]
    exact h1
  | case2 visited modId rest hv ih =>
    intro h1
    rw [mainBFS.eq_def]
    simp only [dif_pos hv]
    exact ih h1
  | case3 visited modId rest hv visited1 deps ih =>
    intro h1
    rw [mainBFS.eq_def]
    simp only [dif_neg hv]
    refine ih ?_
    rw [List.nodup_append]
    exact ⟨h1, List.nodup_singleton _, fun a ha hb => by
      rw [List.mem_singleton] at hb
      subst hb
      exact hv ha⟩

theorem lazyChunksOf_keys_nodup (modules : List (String × ModuleInfo))
    (root : String) (mainIds : List String) (deps : List (String × String)) :
    (akeys (lazyChunksOf modules root mainIds deps)).Nodup := by
  rw [lazyChunksOf]
  apply foldl_keys_nodup
  · intro acc pr hacc
    exact akeys_aset_nodup _ hacc
  · simp [akeys]

theorem lazyChunksOf_shape (modules : List (String × ModuleInfo))
    (root : String) (mainIds : List String) (deps : List (String × String)) :
    ∀ pr ∈ lazyChunksOf modules root mainIds deps,
      pr.2.id = pr.1 ∧
      ∃ d, pr.2.moduleIds = lazyBFS modules root mainIds [] [d] := by
  rw [lazyChunksOf]
  have main : ∀ (ds : List (String × String)) (acc : List (String × Chunk)),
      ∀ pr ∈ ds.foldl
        (fun acc pr =>
          let chunkModuleIds := lazyBFS modules root mainIds [] [pr.1]
          aset acc pr.2 ⟨pr.2, chunkModuleIds, some pr.1, []⟩) acc,
        (pr.2.id = pr.1 ∧ ∃ d, pr.2.moduleIds = lazyBFS modules root mainIds [] [d])
          ∨ pr ∈ acc := by
    intro ds
    induction ds with
    | nil => intro acc pr hpr; exact Or.inr hpr
    | cons x rest ih =>
      intro acc pr hpr
      simp only [List.foldl_cons] at hpr
      rcases ih _ pr hpr with hshape | hm
      · exact Or.inl hshape
      · rcases mem_aset hm with he | hm2
        · refine Or.inl ?_
          rw [he]
          exact ⟨rfl, x.1, rfl⟩
        · exact Or.inr hm2
  intro pr hpr
  rcases main deps [] pr hpr with h | h
  · exact h
  · exact absurd h (by simp)

/-- Every lazy chunk's member list is duplicate-free and disjoint from the
main chunk. -/
theorem lazyChunksOf_members (modules : List (String × ModuleInfo))
    (root : String) (mainIds : List String) (deps : List (String × String)) :
    ∀ pr ∈ lazyChunksOf modules root mainIds deps,
      pr.2.moduleIds.Nodup ∧ ∀ m ∈ pr.2.moduleIds, m ∉ mainIds := by
  intro pr hpr
  obtain ⟨_, d, hd⟩ := lazyChunksOf_shape modules root mainIds deps pr hpr
  rw [hd]
  exact lazyBFS_inv modules root mainIds [] [d] List.nodup_nil (by simp)

theorem innerCounts (K m : String) :
    ∀ (modIds : List String) (acc2 : List (String × List String)),
      aget (modIds.foldl
        (fun acc2 modId =>
          match aget acc2 modId with
          | none => aset acc2 modId (setAdd [] K)
          | some s => aset acc2 modId (setAdd s K)) acc2) m
      = if m ∈ modIds then some (setAdd ((aget acc2 m).getD []) K)
        else aget acc2 m := by
  intro modIds
  induction modIds with
  | nil => intro acc2; simp
  | cons hd t ih =>
    intro acc2
    simp only [List.foldl_cons]
    have hstep : (match aget acc2 hd with
        | none => aset acc2 hd (setAdd [] K)
        | some s => aset acc2 hd (setAdd s K))
        = aset acc2 hd (setAdd ((aget acc2 hd).getD []) K) := by
      cases hg : aget acc2 hd <;> simp
    rw [hstep, ih]
    by_cases hmh : m = hd
    · subst hmh
      by_cases hmt : m ∈ t
      · rw [if_pos hmt, if_pos (List.mem_cons_self _ _)]
        rw [aget_aset]
        simp [setAdd_idem]
      · rw [if_neg hmt, if_pos (List.mem_cons_self _ _)]
        rw [aget_aset]
        simp
    · have hne : hd ≠ m := fun he => hmh he.symm
      rw [aget_aset, if_neg hne]
      by_cases hmt : m ∈ t
      · rw [if_pos hmt, if_pos (List.mem_cons_of_mem _ hmt)]
      · rw [if_neg hmt, if_neg (by
          intro hmem
          rcases List.mem_cons.mp hmem with he | hm2
          · exact hmh he
          · exact hmt hm2)]

theorem countsOuter (m : String) :
    ∀ (done : List (String × Chunk)) (acc : List (String × List String)),
      aget (done.foldl
        (fun acc pr =>
          pr.2.moduleIds.foldl
            (fun acc2 modId =>
              match aget acc2 modId with
              | none => aset acc2 modId (setAdd [] pr.1)
              | some s => aset acc2 modId (setAdd s pr.1)) acc) acc) m
      = ((done.filter (fun pr => decide (m ∈ pr.2.moduleIds))).map Prod.fst).foldl
          (fun o k => some (setAdd (o.getD []) k)) (aget acc m) := by
  intro done
  induction done with
  | nil => intro acc; simp
  | cons x rest ih =>
    intro acc
    simp only [List.foldl_cons]
    rw [ih, innerCounts]
    by_cases hm : m ∈ x.2.moduleIds
    · simp [hm]
    · simp [hm]

theorem optFold_setAdd_some (ks : List String) :
    ∀ (init : List String),
      ks.foldl (fun o k => some (setAdd (o.getD []) k))
          (some init : Option (List String))
        = some (ks.foldl setAdd init) := by
  induction ks with
  | nil => intro init; rfl
  | cons k t ih => intro init; simp only [List.foldl_cons, Option.getD_some, ih]

theorem optFold_setAdd_none (ks : List String) (hne : ks ≠ []) :
    ks.foldl (fun o k => some (setAdd (o.getD []) k)) (none : Option (List String))
      = some (ks.foldl setAdd []) := by
  cases ks with
  | nil => exact absurd rfl hne
  | cons k t =>
    simp only [List.foldl_cons, Option.getD_none]
    exact optFold_setAdd_some t (setAdd [] k)

theorem setAddFold_fresh : ∀ (ks acc : List String), ks.Nodup →
    (∀ k ∈ ks, k ∉ acc) → ks.foldl setAdd acc = acc ++ ks := by
  intro ks
  induction ks with
  | nil => intro acc _ _; simp
  | cons k t ih =>
    intro acc hnd hf
    simp only [List.foldl_cons]
    rw [setAdd_of_not_mem (hf k (List.mem_cons_self _ _))]
    rw [ih _ (List.nodup_cons.mp hnd).2 ?_]
    · simp
    · intro k2 hk2
      simp only [List.mem_append, List.mem_singleton]
      rintro (hm | rfl)
      · exact hf k2 (List.mem_cons_of_mem _ hk2) hm
      · exact (List.nodup_cons.mp hnd).1 hk2

/-- Characterization of the first loop of `splitSharedModules`: the chunk set
recorded for a module id is exactly the (ordered) list of lazy-chunk keys
whose member list contains it. -/
theorem moduleCounts_spec (lz : List (String × Chunk))
    (hnd : (akeys lz).Nodup) (m : String) :
    aget (moduleCountsOf lz) m
      = if ((lz.filter (fun pr => decide (m ∈ pr.2.moduleIds))).map Prod.fst).isEmpty
        then none
        else some ((lz.filter (fun pr => decide (m ∈ pr.2.moduleIds))).map Prod.fst) := by
  rw [moduleCountsOf, countsOuter]
  have hks : ((lz.filter (fun pr => decide (m ∈ pr.2.moduleIds))).map Prod.fst).Nodup := by
    refine List.Nodup.sublist ?_ hnd
    exact List.Sublist.map Prod.fst (List.filter_sublist _)
  cases hk : (lz.filter (fun pr => decide (m ∈ pr.2.moduleIds))).map Prod.fst with
  | nil => simp [aget]
  | cons k t =>
    have hne : (k :: t) ≠ ([] : List String) := by simp
    show List.foldl _ (aget ([] : List (String × List String)) m) _ = _
    have hag : aget ([] : List (String × List String)) m = none := rfl
    rw [hag, optFold_setAdd_none _ hne]
    rw [setAddFold_fresh _ [] (hk ▸ hks) (by simp)]
    simp

theorem aget_filter {α : Type} (p : String × α → Bool) :
    ∀ (l : List (String × α)), (akeys l).Nodup → ∀ k,
      aget (l.filter p) k
        = match aget l k with
          | some v => if p (k, v) then some v else none
          | none => none := by
  intro l
  induction l with
  | nil => intro _ k; simp [aget]
  | cons hd tl ih =>
    intro hnd k
    obtain ⟨k1, v1⟩ := hd
    have hcons : akeys ((k1, v1) :: tl) = k1 :: akeys tl := by simp [akeys]
    rw [hcons] at hnd
    have h1 : k1 ∉ akeys tl := (List.nodup_cons.mp hnd).1
    have h2 : (akeys tl).Nodup := (List.nodup_cons.mp hnd).2
    by_cases hp : p (k1, v1)
    · rw [List.filter_cons_of_pos hp]
      by_cases hk : k1 = k
      · subst hk
        simp [aget, hp]
      · simp only [aget, if_neg hk]
        exact ih h2 k
    · rw [List.filter_cons_of_neg hp]
      by_cases hk : k1 = k
      · subst hk
        simp only [aget, if_pos rfl]
        rw [ih h2 k1, aget_eq_none_of_not_mem_keys h1]
        simp [hp]
      · simp only [aget, if_neg hk]
        exact ih h2 k

theorem sharedModules_value (lz : List (String × Chunk))
    (hnd : (akeys lz).Nodup) (m : String) :
    aget (sharedModulesOf lz) m
      = if 2 ≤ ((lz.filter (fun pr => decide (m ∈ pr.2.moduleIds))).map Prod.fst).length
        then some ((lz.filter (fun pr => decide (m ∈ pr.2.moduleIds))).map Prod.fst)
        else none := by
  rw [sharedModulesOf, aget_filter _ _ (moduleCountsOf_keys_nodup lz) m,
    moduleCounts_spec lz hnd m]
  cases hk : (lz.filter (fun pr => decide (m ∈ pr.2.moduleIds))).map Prod.fst with
  | nil => simp
  | cons a t =>
    simp only [List.isEmpty_cons, if_false, Bool.false_eq_true]
    by_cases hl : 2 ≤ (a :: t).length
    · simp [hl]
    · simp [hl]

theorem sharedModules_isNone (lz : List (String × Chunk))
    (hnd : (akeys lz).Nodup) (m : String) :
    (aget (sharedModulesOf lz) m).isNone
      = decide ((lz.filter (fun pr => decide (m ∈ pr.2.moduleIds))).length < 2) := by
  rw [sharedModules_value lz hnd m]
  by_cases hl : 2 ≤ ((lz.filter (fun pr => decide (m ∈ pr.2.moduleIds))).map Prod.fst).length
  · rw [if_pos hl]
    simp only [List.length_map] at hl
    simp [Nat.not_lt_of_le hl]
  · rw [if_neg hl]
    simp only [List.length_map] at hl
    simp [Nat.lt_of_not_le hl]

theorem sharedModules_entry (lz : List (String × Chunk))
    (hnd : (akeys lz).Nodup) :
    ∀ pr ∈ sharedModulesOf lz,
      pr.2 = (lz.filter (fun pr2 => decide (pr.1 ∈ pr2.2.moduleIds))).map Prod.fst ∧
      2 ≤ pr.2.length := by
  intro pr hpr
  have hkn : (akeys (sharedModulesOf lz)).Nodup := sharedModulesOf_keys_nodup lz
  have hag := aget_of_mem_nodup hkn hpr
  rw [sharedModules_value lz hnd pr.1] at hag
  by_cases hl : 2 ≤ ((lz.filter (fun pr2 => decide (pr.1 ∈ pr2.2.moduleIds))).map Prod.fst).length
  · rw [if_pos hl] at hag
    injection hag with hag2
    refine ⟨hag2.symm, ?_⟩
    rw [← hag2]
    exact hl
  · rw [if_neg hl] at hag
    exact absurd hag (by simp)

/-- Every shared module id is a member of some lazy chunk. -/
theorem sharedModules_mem_chunk (lz : List (String × Chunk))
    (hnd : (akeys lz).Nodup) :
    ∀ pr ∈ sharedModulesOf lz, ∃ ch ∈ lz, pr.1 ∈ ch.2.moduleIds := by
  intro pr hpr
  obtain ⟨hval, hlen⟩ := sharedModules_entry lz hnd pr hpr
  rw [hval] at hlen
  cases hf : lz.filter (fun pr2 => decide (pr.1 ∈ pr2.2.moduleIds)) with
  | nil => rw [hf] at hlen; simp at hlen
  | cons ch t =>
    have hch : ch ∈ lz.filter (fun pr2 => decide (pr.1 ∈ pr2.2.moduleIds)) := by
      rw [hf]
      exact List.mem_cons_self _ _
    have hm := List.of_mem_filter hch
    exact ⟨ch, List.mem_of_mem_filter hch, by simpa using hm⟩

theorem mem_aset_self {α : Type} (l : List (String × α)) (k : String) (v : α) :
    (k, v) ∈ aset l k v := by
  induction l with
  | nil => simp [aset]
  | cons hd tl ih =>
    obtain ⟨k1, v1⟩ := hd
    by_cases he : k1 = k
    · simp [aset, he]
    · simp only [aset, if_neg he, List.mem_cons]
      exact Or.inr ih

theorem aset_mem_iff_of_nodup {α : Type} [DecidableEq α] :
    ∀ {l : List (String × α)} {k : String} {v : α}, (akeys l).Nodup →
      ∀ pr : String × α, pr ∈ aset l k v ↔ (pr = (k, v) ∨ (pr ∈ l ∧ pr.1 ≠ k)) := by
  intro l
  induction l with
  | nil =>
    intro k v _ pr
    simp [aset]
  | cons hd tl ih =>
    intro k v hnd pr
    obtain ⟨k1, v1⟩ := hd
    have hcons : akeys ((k1, v1) :: tl) = k1 :: akeys tl := by simp [akeys]
    rw [hcons] at hnd
    have h1 : k1 ∉ akeys tl := (List.nodup_cons.mp hnd).1
    have h2 : (akeys tl).Nodup := (List.nodup_cons.mp hnd).2
    by_cases he : k1 = k
    · subst he
      simp only [aset, eq_self_iff_true, if_true, List.mem_cons]
      constructor
      · rintro (rfl | hm)
        · exact Or.inl rfl
        · have hne : pr.1 ≠ k1 := by
            intro heq
            exact h1 (heq ▸ List.mem_map.mpr ⟨pr, hm, rfl⟩)
          exact Or.inr ⟨Or.inr hm, hne⟩
      · rintro (rfl | ⟨hm | hm, hne⟩)
        · exact Or.inl rfl
        · exact absurd (congrArg Prod.fst hm) hne
        · exact Or.inr hm
    · simp only [aset, if_neg he, List.mem_cons]
      rw [ih h2 pr]
      constructor
      · rintro (rfl | rfl | ⟨hm, hne⟩)
        · exact Or.inr ⟨Or.inl rfl, fun heq => he (heq ▸ rfl)⟩
        · exact Or.inl rfl
        · exact Or.inr ⟨Or.inr hm, hne⟩
      · rintro (rfl | ⟨rfl | hm, hne⟩)
        · exact Or.inr (Or.inl rfl)
        · exact Or.inl rfl
        · exact Or.inr (Or.inr ⟨hm, hne⟩)

theorem entries_eq_of_key_eq {α : Type} {l : List (String × α)}
    (hnd : (akeys l).Nodup) {pr1 pr2 : String × α} (h1 : pr1 ∈ l) (h2 : pr2 ∈ l)
    (hk : pr1.1 = pr2.1) : pr1 = pr2 := by
  have ha1 := aget_of_mem_nodup hnd h1
  have ha2 := aget_of_mem_nodup hnd h2
  rw [hk] at ha1
  rw [ha2] at ha1
  injection ha1 with hv
  exact Prod.ext hk hv.symm

theorem groupsFold_spec :
    ∀ (todo processed : List (String × List String))
      (acc : List (String × (List String × List String))),
      (akeys (processed ++ todo)).Nodup →
      (akeys acc).Nodup →
      (∀ g ∈ acc, g.2.1.Nodup ∧
        ∀ m, (m ∈ g.2.1 ↔ ∃ pr ∈ processed, pr.1 = m ∧
          String.intercalate "|" (sortStrings pr.2) = g.1)) →
      (∀ pr ∈ processed, ∃ g ∈ acc,
        g.1 = String.intercalate "|" (sortStrings pr.2)) →
      ∀ res, res = todo.foldl
          (fun acc2 pr =>
            let key := String.intercalate "|" (sortStrings pr.2)
            match aget acc2 key with
            | none => aset acc2 key (setAdd [] pr.1, pr.2)
            | some g => aset acc2 key (setAdd g.1 pr.1, g.2)) acc →
      ((akeys res).Nodup ∧
       (∀ g ∈ res, g.2.1.Nodup ∧
         ∀ m, (m ∈ g.2.1 ↔ ∃ pr ∈ processed ++ todo, pr.1 = m ∧
           String.intercalate "|" (sortStrings pr.2) = g.1)) ∧
       (∀ pr ∈ processed ++ todo, ∃ g ∈ res,
         g.1 = String.intercalate "|" (sortStrings pr.2))) := by
  intro todo
  induction todo with
  | nil =>
    intro processed acc hnd hka hI2 hI3 res hres
    subst hres
    simp only [List.foldl_nil, List.append_nil]
    exact ⟨hka, hI2, hI3⟩
  | cons x rest ih =>
    intro processed acc hnd hka hI2 hI3 res hres
    have hnd0 := hnd
    have hsplit : akeys (processed ++ x :: rest) = akeys processed ++ x.1 :: akeys rest := by
      simp [akeys]
    rw [hsplit] at hnd
    have hdisj := List.nodup_append.mp hnd
    have hx1p : x.1 ∉ akeys processed := fun hm => hdisj.2.2 hm (List.mem_cons_self _ _)
    have happ : (processed ++ [x]) ++ rest = processed ++ x :: rest := by simp
    have hnd2 : (akeys ((processed ++ [x]) ++ rest)).Nodup := by
      rw [happ]
      exact hnd0
    subst hres
    simp only [List.foldl_cons]
    cases hg : aget acc (String.intercalate "|" (sortStrings x.2)) with
    | none =>
      have hka2 : (akeys (aset acc (String.intercalate "|" (sortStrings x.2))
          (setAdd [] x.1, x.2))).Nodup := akeys_aset_nodup _ hka
      have hI2n : ∀ g ∈ aset acc (String.intercalate "|" (sortStrings x.2))
          (setAdd [] x.1, x.2), g.2.1.Nodup ∧
          ∀ m, (m ∈ g.2.1 ↔ ∃ pr ∈ processed ++ [x], pr.1 = m ∧
            String.intercalate "|" (sortStrings pr.2) = g.1) := by
        intro g hgm
        rcases (aset_mem_iff_of_nodup hka g).mp hgm with he | ⟨hold, hne⟩
        · subst he
          refine ⟨by simp [setAdd], ?_⟩
          intro m
          show m ∈ setAdd [] x.1 ↔ _
          rw [setAdd_of_not_mem (List.not_mem_nil x.1), List.nil_append,
            List.mem_singleton]
          constructor
          · intro hm
            exact ⟨x, by simp, hm.symm, rfl⟩
          · rintro ⟨pr, hpr, hprm, hprk⟩
            rcases List.mem_append.mp hpr with hp | hp
            · obtain ⟨g0, hg0, hg0k⟩ := hI3 pr hp
              have hprk2 : String.intercalate "|" (sortStrings pr.2)
                  = String.intercalate "|" (sortStrings x.2) := hprk
              have : (String.intercalate "|" (sortStrings x.2)) ∈ akeys acc := by
                rw [← hprk2, ← hg0k]
                exact List.mem_map.mpr ⟨g0, hg0, rfl⟩
              have := aget_isSome_of_mem_keys this
              rw [hg] at this
              simp at this
            · rw [List.mem_singleton] at hp
              subst hp
              exact hprm.symm
        · obtain ⟨hgnd, hgm2⟩ := hI2 g hold
          refine ⟨hgnd, ?_⟩
          intro m
          rw [hgm2 m]
          constructor
          · rintro ⟨pr, hpr, hprm, hprk⟩
            exact ⟨pr, List.mem_append_left _ hpr, hprm, hprk⟩
          · rintro ⟨pr, hpr, hprm, hprk⟩
            rcases List.mem_append.mp hpr with hp | hp
            · exact ⟨pr, hp, hprm, hprk⟩
            · rw [List.mem_singleton] at hp
              subst hp
              exact absurd hprk hne.symm
      have hI3n : ∀ pr ∈ processed ++ [x],
          ∃ g ∈ aset acc (String.intercalate "|" (sortStrings x.2))
            (setAdd [] x.1, x.2),
            g.1 = String.intercalate "|" (sortStrings pr.2) := by
        intro pr hpr
        rcases List.mem_append.mp hpr with hp | hp
        · obtain ⟨g0, hg0, hg0k⟩ := hI3 pr hp
          have hne : g0.1 ≠ String.intercalate "|" (sortStrings x.2) := by
            intro he
            have : (String.intercalate "|" (sortStrings x.2)) ∈ akeys acc :=
              he ▸ List.mem_map.mpr ⟨g0, hg0, rfl⟩
            have := aget_isSome_of_mem_keys this
            rw [hg] at this
            simp at this
          refine ⟨g0, ?_, hg0k⟩
          exact (aset_mem_iff_of_nodup hka g0).mpr (Or.inr ⟨hg0, hne⟩)
        · rw [List.mem_singleton] at hp
          subst hp
          exact ⟨(String.intercalate "|" (sortStrings pr.2), (setAdd [] pr.1, pr.2)),
            mem_aset_self _ _ _, rfl⟩
      obtain ⟨A, B, C⟩ := ih (processed ++ [x]) _ hnd2 hka2 hI2n hI3n _ rfl
      simp only [happ] at B C
      exact ⟨A, B, C⟩
    | some g =>
      have hg0mem : (String.intercalate "|" (sortStrings x.2), g) ∈ acc := aget_mem hg
      obtain ⟨hg0nd, hg0iff⟩ := hI2 _ hg0mem
      have hx1g : x.1 ∉ g.1 := by
        intro hm
        obtain ⟨pr, hpr, hprm, _⟩ := (hg0iff x.1).mp hm
        exact hx1p (List.mem_map.mpr ⟨pr, hpr, hprm⟩)
      have hka2 : (akeys (aset acc (String.intercalate "|" (sortStrings x.2))
          (setAdd g.1 x.1, g.2))).Nodup := akeys_aset_nodup _ hka
      have hI2n : ∀ g2 ∈ aset acc (String.intercalate "|" (sortStrings x.2))
          (setAdd g.1 x.1, g.2), g2.2.1.Nodup ∧
          ∀ m, (m ∈ g2.2.1 ↔ ∃ pr ∈ processed ++ [x], pr.1 = m ∧
            String.intercalate "|" (sortStrings pr.2) = g2.1) := by
        intro g2 hg2m
        rcases (aset_mem_iff_of_nodup hka g2).mp hg2m with he | ⟨hold, hne⟩
        · subst he
          constructor
          · rw [setAdd_of_not_mem hx1g, List.nodup_append]
            exact ⟨hg0nd, List.nodup_singleton _, fun a ha hb => by
              rw [List.mem_singleton] at hb
              subst hb
              exact hx1g ha⟩
          · intro m
            show m ∈ setAdd g.1 x.1 ↔ _
            rw [mem_setAdd]
            constructor
            · rintro (hm | rfl)
              · obtain ⟨pr, hpr, hprm, hprk⟩ := (hg0iff m).mp hm
                exact ⟨pr, List.mem_append_left _ hpr, hprm, hprk⟩
              · exact ⟨x, List.mem_append_right _ (List.mem_singleton_self _),
                  rfl, rfl⟩
            · rintro ⟨pr, hpr, hprm, hprk⟩
              rcases List.mem_append.mp hpr with hp | hp
              · exact Or.inl ((hg0iff m).mpr ⟨pr, hp, hprm, hprk⟩)
              · rw [List.mem_singleton] at hp
                subst hp
                exact Or.inr hprm.symm
        · obtain ⟨hgnd, hgm2⟩ := hI2 g2 hold
          refine ⟨hgnd, ?_⟩
          intro m
          rw [hgm2 m]
          constructor
          · rintro ⟨pr, hpr, hprm, hprk⟩
            exact ⟨pr, List.mem_append_left _ hpr, hprm, hprk⟩
          · rintro ⟨pr, hpr, hprm, hprk⟩
            rcases List.mem_append.mp hpr with hp | hp
            · exact ⟨pr, hp, hprm, hprk⟩
            · rw [List.mem_singleton] at hp
              subst hp
              exact absurd hprk hne.symm
      have hI3n : ∀ pr ∈ processed ++ [x],
          ∃ g2 ∈ aset acc (String.intercalate "|" (sortStrings x.2))
            (setAdd g.1 x.1, g.2),
            g2.1 = String.intercalate "|" (sortStrings pr.2) := by
        intro pr hpr
        rcases List.mem_append.mp hpr with hp | hp
        · obtain ⟨g0, hg0, hg0k⟩ := hI3 pr hp
          by_cases hne : g0.1 = String.intercalate "|" (sortStrings x.2)
          · refine ⟨(String.intercalate "|" (sortStrings x.2), (setAdd g.1 x.1, g.2)),
              mem_aset_self _ _ _, ?_⟩
            rw [← hg0k, hne]
          · refine ⟨g0, ?_, hg0k⟩
            exact (aset_mem_iff_of_nodup hka g0).mpr (Or.inr ⟨hg0, hne⟩)
        · rw [List.mem_singleton] at hp
          subst hp
          exact ⟨(String.intercalate "|" (sortStrings pr.2), (setAdd g.1 pr.1, g.2)),
            mem_aset_self _ _ _, rfl⟩
      obtain ⟨A, B, C⟩ := ih (processed ++ [x]) _ hnd2 hka2 hI2n hI3n _ rfl
      simp only [happ] at B C
      exact ⟨A, B, C⟩

/-- Structure of the grouping loop of `splitSharedModules`: group keys are
unique; a module id belongs to a group exactly when its (sorted, joined)
chunk-set key equals the group key; every shared module lands in a group. -/
theorem groupsOf_spec (lz : List (String × Chunk)) :
    (akeys (groupsOf lz)).Nodup ∧
    (∀ g ∈ groupsOf lz, g.2.1.Nodup ∧
      ∀ m, (m ∈ g.2.1 ↔ ∃ pr ∈ sharedModulesOf lz, pr.1 = m ∧
        String.intercalate "|" (sortStrings pr.2) = g.1)) ∧
    (∀ pr ∈ sharedModulesOf lz, ∃ g ∈ groupsOf lz,
      g.1 = String.intercalate "|" (sortStrings pr.2)) := by
  have h := groupsFold_spec (sharedModulesOf lz) [] []
    (by simpa using sharedModulesOf_keys_nodup lz)
    (by simp [akeys])
    (by intro g hg; simp at hg)
    (by intro pr hpr; simp at hpr)
    (groupsOf lz) (by rw [groupsOf])
  simpa using h

theorem sharedChunksOf_eq_map (lz : List (String × Chunk))
    (hgid : ∀ g1 ∈ groupsOf lz, ∀ g2 ∈ groupsOf lz,
      toChunkId (g1.2.1.headD "") = toChunkId (g2.2.1.headD "") → g1 = g2) :
    sharedChunksOf lz
      = (groupsOf lz).map (fun g =>
          ("shared_" ++ toChunkId (g.2.1.headD ""),
            (⟨"shared_" ++ toChunkId (g.2.1.headD ""), g.2.1, none, g.2.2⟩ : Chunk))) := by
  rw [sharedChunksOf]
  have hnd : ((groupsOf lz).map
      (fun g => "shared_" ++ toChunkId (g.2.1.headD ""))).Nodup := by
    refine List.Nodup.map_on ?_ (List.Nodup.of_map Prod.fst (groupsOf_spec lz).1)
    intro g1 h1 g2 h2 he
    exact hgid g1 h1 g2 h2 (string_append_cancel_left he)
  have h := foldl_aset_map2
    (fun (g : String × (List String × List String)) =>
      "shared_" ++ toChunkId (g.2.1.headD ""))
    (fun g =>
      (⟨"shared_" ++ toChunkId (g.2.1.headD ""), g.2.1, none, g.2.2⟩ : Chunk))
    (groupsOf lz) [] hnd (by intro x hx; simp [akeys])
  exact h.trans (by simp)

theorem splitShared_updated_eq (lz : List (String × Chunk))
    (hnd : (akeys lz).Nodup)
    (hne : (sharedModulesOf lz).isEmpty = false) :
    (splitSharedModules lz).1
      = lz.map (fun pr => (pr.1,
          (⟨pr.2.id,
            pr.2.moduleIds.filter (fun m => (aget (sharedModulesOf lz) m).isNone),
            pr.2.entryModuleId, pr.2.originalChunks⟩ : Chunk))) := by
  rw [splitSharedModules, if_neg (by simp [hne])]
  show lz.foldl
      (fun acc pr => aset acc pr.1
        (⟨pr.2.id,
          pr.2.moduleIds.filter (fun m => (aget (sharedModulesOf lz) m).isNone),
          pr.2.entryModuleId, pr.2.originalChunks⟩ : Chunk)) []
    = lz.map (fun pr => (pr.1,
        (⟨pr.2.id,
          pr.2.moduleIds.filter (fun m => (aget (sharedModulesOf lz) m).isNone),
          pr.2.entryModuleId, pr.2.originalChunks⟩ : Chunk)))
  have h := foldl_aset_map2 (fun (pr : String × Chunk) => pr.1)
    (fun pr =>
      (⟨pr.2.id,
        pr.2.moduleIds.filter (fun m => (aget (sharedModulesOf lz) m).isNone),
        pr.2.entryModuleId, pr.2.originalChunks⟩ : Chunk))
    lz [] (by exact hnd) (by intro x hx; simp [akeys])
  exact h.trans (by simp)

theorem splitShared_shared_eq (lz : List (String × Chunk))
    (hne : (sharedModulesOf lz).isEmpty = false) :
    (splitSharedModules lz).2 = sharedChunksOf lz := by
  rw [splitSharedModules, if_neg (by simp [hne])]

theorem splitShared_empty (lz : List (String × Chunk))
    (he : (sharedModulesOf lz).isEmpty = true) :
    splitSharedModules lz = (lz, []) := by
  rw [splitSharedModules, if_pos he]

theorem allLazyChunksOf_eq (U S : List (String × Chunk))
    (hnd : (akeys (U ++ S)).Nodup) :
    allLazyChunksOf U S = U ++ S := by
  rw [allLazyChunksOf]
  have h := foldl_aset_map2 (fun (pr : String × Chunk) => pr.1) (fun pr => pr.2)
    (U ++ S) [] (by exact hnd) (by intro x hx; simp [akeys])
  exact h.trans (by simp)

theorem mapM_fst {f : String → Except String (String × String)}
    (hf : ∀ mid y, f mid = .ok y → y.1 = mid) :
    ∀ (ids : List String) (l : List (String × String)),
      ids.mapM f = .ok l → l.map Prod.fst = ids := by
  intro ids
  induction ids with
  | nil =>
    intro l h
    simp only [List.mapM_nil, pure, Except.pure, Except.ok.injEq] at h
    rw [← h]
    rfl
  | cons x xs ih =>
    intro l h
    rw [List.mapM_cons] at h
    cases hx : f x with
    | error e =>
      rw [hx] at h
      simp [bind, Except.bind] at h
    | ok y =>
      rw [hx] at h
      simp only [bind, Except.bind] at h
      cases hxs : xs.mapM f with
      | error e =>
        rw [hxs] at h
        simp [bind, Except.bind] at h
      | ok ys =>
        rw [hxs] at h
        simp only [bind, Except.bind, pure, Except.pure, Except.ok.injEq] at h
        rw [← h]
        simp only [List.map_cons]
        rw [ih ys hxs, hf x y hx]

theorem factoriesFor_fst (modules : List (String × ModuleInfo)) (root : String)
    (ids : List String) (l : List (String × String))
    (h : factoriesFor modules root ids = .ok l) : l.map Prod.fst = ids := by
  refine mapM_fst ?_ ids l h
  intro mid y hy
  cases ha : aget modules mid with
  | none =>
    rw [ha] at hy
    simp at hy
  | some info =>
    rw [ha] at hy
    simp only at hy
    cases htr : transformModule info root with
    | error e =>
      rw [htr] at hy
      simp [bind, Except.bind] at hy
    | ok t =>
      rw [htr] at hy
      simp only [bind, Except.bind, pure, Except.pure, Except.ok.injEq] at hy
      rw [← hy]

theorem mapM_bundles_gen {f : String × Chunk → Except String Bundle}
    (hf : ∀ pr b, f pr = .ok b → b.moduleIds = pr.2.moduleIds) :
    ∀ (chunks : List (String × Chunk)) (lbs : List Bundle),
      chunks.mapM f = .ok lbs →
      lbs.map Bundle.moduleIds = chunks.map (fun pr => pr.2.moduleIds) := by
  intro chunks
  induction chunks with
  | nil =>
    intro lbs h
    simp only [List.mapM_nil, pure, Except.pure, Except.ok.injEq] at h
    rw [← h]
    rfl
  | cons x xs ih =>
    intro lbs h
    rw [List.mapM_cons] at h
    cases hx : f x with
    | error e =>
      rw [hx] at h
      simp [bind, Except.bind] at h
    | ok b =>
      rw [hx] at h
      simp only [bind, Except.bind] at h
      cases hxs : xs.mapM f with
      | error e =>
        rw [hxs] at h
        simp [bind, Except.bind] at h
      | ok ys =>
        rw [hxs] at h
        simp only [bind, Except.bind, pure, Except.pure, Except.ok.injEq] at h
        rw [← h]
        simp only [List.map_cons]
        rw [ih ys hxs, hf x b hx]

theorem generateBundles_ids (ci : ChunkInfo) (root : String) (bs : List Bundle)
    (h : generateBundles ci root = .ok bs) :
    bs.map Bundle.moduleIds
      = ci.mainModuleIds :: ci.lazyChunks.map (fun pr => pr.2.moduleIds) := by
  rw [generateBundles] at h
  generalize hF : (fun (pr : String × Chunk) =>
      (do
        let lfs ← factoriesFor ci.modules root pr.2.moduleIds
        pure (Bundle.mk (pr.1 ++ ".js") lfs) : Except String Bundle)) = F at h
  have hFok : ∀ pr b, F pr = .ok b → b.moduleIds = pr.2.moduleIds := by
    intro pr b hb
    rw [← hF] at hb
    simp only at hb
    cases hx : factoriesFor ci.modules root pr.2.moduleIds with
    | error e =>
      rw [hx] at hb
      simp [bind, Except.bind] at hb
    | ok lfs =>
      rw [hx] at hb
      simp only [bind, Except.bind, pure, Except.pure, Except.ok.injEq] at hb
      rw [← hb]
      show lfs.map Prod.fst = pr.2.moduleIds
      exact factoriesFor_fst ci.modules root _ _ hx
  cases hm : factoriesFor ci.modules root ci.mainModuleIds with
  | error e =>
    rw [hm] at h
    simp [bind, Except.bind] at h
  | ok mainF =>
    rw [hm] at h
    simp only [bind, Except.bind] at h
    cases hl : ci.lazyChunks.mapM F with
    | error e =>
      rw [hl] at h
      simp [bind, Except.bind] at h
    | ok lbs =>
      rw [hl] at h
      simp only [bind, Except.bind, pure, Except.pure, Except.ok.injEq] at h
      rw [← h]
      simp only [List.map_cons]
      rw [mapM_bundles_gen hFok ci.lazyChunks lbs hl]
      have hmain : (Bundle.mk "main.js" mainF).moduleIds = ci.mainModuleIds :=
        factoriesFor_fst ci.modules root _ _ hm
      rw [hmain]

theorem two_le_length_of_mem_ne {α : Type} :
    ∀ {l : List α} {a b : α}, a ∈ l → b ∈ l → a ≠ b → 2 ≤ l.length := by
  intro l
  induction l with
  | nil => intro a b ha _ _; simp at ha
  | cons x t ih =>
    intro a b ha hb hne
    rcases List.mem_cons.mp ha with rfl | hat
    · rcases List.mem_cons.mp hb with rfl | hbt
      · exact absurd rfl hne
      · have : t ≠ [] := fun he => by
          rw [he] at hbt
          simp at hbt
        have := List.length_pos.mpr this
        simp only [List.length_cons]
        omega
    · have : t ≠ [] := fun he => by
        rw [he] at hat
        simp at hat
      have := List.length_pos.mpr this
      simp only [List.length_cons]
      omega

theorem chunk_unique_of_not_shared (lz : List (String × Chunk))
    (hlznd : (akeys lz).Nodup) (m : String)
    (hnone : aget (sharedModulesOf lz) m = none)
    {pr0 pr1 : String × Chunk} (h0 : pr0 ∈ lz) (h1 : pr1 ∈ lz)
    (hm0 : m ∈ pr0.2.moduleIds) (hm1 : m ∈ pr1.2.moduleIds) : pr0 = pr1 := by
  by_contra hne
  have h2 : 2 ≤ (lz.filter (fun pr => decide (m ∈ pr.2.moduleIds))).length := by
    refine two_le_length_of_mem_ne
      (List.mem_filter.mpr ⟨h0, by simpa using hm0⟩)
      (List.mem_filter.mpr ⟨h1, by simpa using hm1⟩) hne
  have hv := sharedModules_value lz hlznd m
  rw [hnone, if_pos (by simpa using h2)] at hv
  exact absurd hv (by simp)

theorem shared_of_mem_keys (lz : List (String × Chunk))
    {m : String} (hm : m ∈ akeys (sharedModulesOf lz)) :
    ∃ v, aget (sharedModulesOf lz) m = some v := by
  have := aget_isSome_of_mem_keys hm
  cases h : aget (sharedModulesOf lz) m with
  | none => rw [h] at this; simp at this
  | some v => exact ⟨v, rfl⟩

/-- C6 (amended): provided the derived chunk ids are collision-free — groups
of shared modules with equal derived first-member chunk ids coincide, and no
`shared_`-prefixed chunk id collides with a lazy chunk id — every module id
that the planner places in the main chunk or in any lazy chunk is registered
by exactly one factory across all emitted bundles (total multiplicity one).
Without the proviso the invariant fails: a chunk-id collision silently drops
a chunk, as the counterexample shows. -/
theorem module_factory_exactly_once
    (graph : List (String × ModuleInfo)) (entryPath root : String)
    (M : List (String × ModuleInfo)) (hM : M = modulesOf graph root)
    (mainIds : List String)
    (hmain : mainIds = mainBFS M root [] [toModuleId entryPath root])
    (lz : List (String × Chunk))
    (hlz : lz = lazyChunksOf M root mainIds (dynamicEntryPointsOf M root))
    (bs : List Bundle)
    (hok : generateBundles (identifyChunks graph entryPath root) root = .ok bs)
    (hgid : ∀ g1 ∈ groupsOf lz, ∀ g2 ∈ groupsOf lz,
      toChunkId (g1.2.1.headD "") = toChunkId (g2.2.1.headD "") → g1 = g2)
    (hfresh : ∀ g ∈ groupsOf lz,
      ("shared_" ++ toChunkId (g.2.1.headD "")) ∉ akeys lz)
    (m : String)
    (hm : m ∈ mainIds ∨ ∃ pr ∈ lz, m ∈ pr.2.moduleIds) :
    (bs.map (fun b => b.moduleIds.count m)).sum = 1 := by
  have hlznd : (akeys lz).Nodup := by
    rw [hlz]
    exact lazyChunksOf_keys_nodup M root mainIds _
  have hmembers : ∀ pr ∈ lz, pr.2.moduleIds.Nodup ∧
      ∀ x ∈ pr.2.moduleIds, x ∉ mainIds := by
    intro pr hpr
    rw [hlz] at hpr
    exact lazyChunksOf_members M root mainIds _ pr hpr
  have hmainnd : mainIds.Nodup := by
    rw [hmain]
    exact mainBFS_nodup M root [] _ List.nodup_nil
  have hids := generateBundles_ids _ root bs hok
  have hciMain : (identifyChunks graph entryPath root).mainModuleIds = mainIds := by
    rw [hmain, hM]
    rfl
  have hciLazy : (identifyChunks graph entryPath root).lazyChunks
      = allLazyChunksOf (splitSharedModules lz).1 (splitSharedModules lz).2 := by
    rw [hlz, hmain, hM]
    rfl
  rw [hciMain, hciLazy] at hids
  by_cases hempty : (sharedModulesOf lz).isEmpty
  · rw [splitShared_empty lz hempty] at hids
    have hall : allLazyChunksOf (lz, ([] : List (String × Chunk))).1 (lz, []).2 = lz := by
      refine (allLazyChunksOf_eq lz [] ?_).trans (by simp)
      simpa using hlznd
    rw [hall] at hids
    have hsum : (bs.map (fun b => b.moduleIds.count m)).sum
        = mainIds.count m + (lz.map (fun pr => pr.2.moduleIds.count m)).sum := by
      have hc : bs.map (fun b => b.moduleIds.count m)
          = (bs.map Bundle.moduleIds).map (fun ids => ids.count m) := by
        rw [List.map_map]
        rfl
      rw [hc, hids]
      simp only [List.map_cons, List.sum_cons, List.map_map]
      rfl
    rw [hsum]
    rcases hm with hmm | ⟨pr0, hpr0, hmpr0⟩
    · rw [List.count_eq_one_of_mem hmainnd hmm]
      rw [sum_map_zero lz _ ?_]
      · intro pr hpr
        exact List.count_eq_zero_of_not_mem (fun hmem => (hmembers pr hpr).2 m hmem hmm)
    · have hnotmain : m ∉ mainIds := fun hmm2 => (hmembers pr0 hpr0).2 m hmpr0 hmm2
      rw [List.count_eq_zero_of_not_mem hnotmain]
      have hnone : aget (sharedModulesOf lz) m = none := by
        have he : sharedModulesOf lz = [] := by
          cases hsh : sharedModulesOf lz with
          | nil => rfl
          | cons a t => rw [hsh] at hempty; simp at hempty
        rw [he]
        rfl
      rw [sum_map_one lz _ pr0 (List.Nodup.of_map Prod.fst hlznd) hpr0
        (List.count_eq_one_of_mem (hmembers pr0 hpr0).1 hmpr0)
        (fun pr1 hpr1 hne1 => List.count_eq_zero_of_not_mem
          (fun hmem => hne1 (chunk_unique_of_not_shared lz hlznd m hnone
            hpr1 hpr0 hmem hmpr0)))]
  · have hempty2 : (sharedModulesOf lz).isEmpty = false := by
      cases h : (sharedModulesOf lz).isEmpty
      · rfl
      · exact absurd h hempty
    rw [splitShared_shared_eq lz hempty2, splitShared_updated_eq lz hlznd hempty2,
      sharedChunksOf_eq_map lz hgid] at hids
    have hallnd : (akeys
        (lz.map (fun pr => (pr.1,
          (⟨pr.2.id,
            pr.2.moduleIds.filter (fun m2 => (aget (sharedModulesOf lz) m2).isNone),
            pr.2.entryModuleId, pr.2.originalChunks⟩ : Chunk)))
         ++ (groupsOf lz).map (fun g =>
          ("shared_" ++ toChunkId (g.2.1.headD ""),
            (⟨"shared_" ++ toChunkId (g.2.1.headD ""), g.2.1, none, g.2.2⟩ : Chunk))))).Nodup := by
      have hUkeys : akeys (lz.map (fun pr => (pr.1,
          (⟨pr.2.id,
            pr.2.moduleIds.filter (fun m2 => (aget (sharedModulesOf lz) m2).isNone),
            pr.2.entryModuleId, pr.2.originalChunks⟩ : Chunk)))) = akeys lz := by
        show List.map _ _ = _
        rw [List.map_map]
        rfl
      have hSkeys : akeys ((groupsOf lz).map (fun g =>
          ("shared_" ++ toChunkId (g.2.1.headD ""),
            (⟨"shared_" ++ toChunkId (g.2.1.headD ""), g.2.1, none, g.2.2⟩ : Chunk))))
          = (groupsOf lz).map (fun g => "shared_" ++ toChunkId (g.2.1.headD "")) := by
        show List.map _ _ = _
        rw [List.map_map]
        rfl
      have hSnd : ((groupsOf lz).map
          (fun g => "shared_" ++ toChunkId (g.2.1.headD ""))).Nodup := by
        refine List.Nodup.map_on ?_ (List.Nodup.of_map Prod.fst (groupsOf_spec lz).1)
        intro g1 h1 g2 h2 he
        exact hgid g1 h1 g2 h2 (string_append_cancel_left he)
      show (akeys (_ ++ _)).Nodup
      have happ : akeys (lz.map (fun pr => (pr.1,
            (⟨pr.2.id,
              pr.2.moduleIds.filter (fun m2 => (aget (sharedModulesOf lz) m2).isNone),
              pr.2.entryModuleId, pr.2.originalChunks⟩ : Chunk)))
           ++ (groupsOf lz).map (fun g =>
            ("shared_" ++ toChunkId (g.2.1.headD ""),
              (⟨"shared_" ++ toChunkId (g.2.1.headD ""), g.2.1, none, g.2.2⟩ : Chunk))))
          = akeys lz ++ (groupsOf lz).map (fun g => "shared_" ++ toChunkId (g.2.1.headD "")) := by
        show List.map _ (_ ++ _) = _
        rw [List.map_append]
        rw [show (List.map Prod.fst (lz.map (fun pr => (pr.1,
          (⟨pr.2.id,
            pr.2.moduleIds.filter (fun m2 => (aget (sharedModulesOf lz) m2).isNone),
            pr.2.entryModuleId, pr.2.originalChunks⟩ : Chunk)))) : List String) = akeys lz from hUkeys]
        rw [show (List.map Prod.fst ((groupsOf lz).map (fun g =>
          ("shared_" ++ toChunkId (g.2.1.headD ""),
            (⟨"shared_" ++ toChunkId (g.2.1.headD ""), g.2.1, none, g.2.2⟩ : Chunk)))) : List String)
          = (groupsOf lz).map (fun g => "shared_" ++ toChunkId (g.2.1.headD "")) from hSkeys]
      rw [happ, List.nodup_append]
      refine ⟨hlznd, hSnd, ?_⟩
      intro k hk1 hk2
      obtain ⟨g, hg, hgk⟩ := List.mem_map.mp hk2
      exact hfresh g hg (hgk ▸ hk1)
    rw [allLazyChunksOf_eq _ _ hallnd] at hids
    have hsum : (bs.map (fun b => b.moduleIds.count m)).sum
        = mainIds.count m
          + ((lz.map (fun pr =>
              (pr.2.moduleIds.filter
                (fun m2 => (aget (sharedModulesOf lz) m2).isNone)).count m)).sum
            + ((groupsOf lz).map (fun g => g.2.1.count m)).sum) := by
      have hc : bs.map (fun b => b.moduleIds.count m)
          = (bs.map Bundle.moduleIds).map (fun ids => ids.count m) := by
        rw [List.map_map]
        rfl
      rw [hc, hids]
      simp only [List.map_cons, List.sum_cons, List.map_append, List.sum_append,
        List.map_map]
      rfl
    rw [hsum]
    rcases hm with hmm | ⟨pr0, hpr0, hmpr0⟩
    · rw [List.count_eq_one_of_mem hmainnd hmm]
      rw [sum_map_zero lz _ (fun pr hpr => List.count_eq_zero_of_not_mem
        (fun hmem => (hmembers pr hpr).2 m (List.mem_of_mem_filter hmem) hmm))]
      rw [sum_map_zero (groupsOf lz) _ ?_]
      intro g hg
      refine List.count_eq_zero_of_not_mem (fun hmem => ?_)
      obtain ⟨prS, hprS, hprSm, _⟩ := (((groupsOf_spec lz).2.1 g hg).2 m).mp hmem
      obtain ⟨ch, hch, hchm⟩ := sharedModules_mem_chunk lz hlznd prS hprS
      rw [hprSm] at hchm
      exact (hmembers ch hch).2 m hchm hmm
    · have hnotmain : m ∉ mainIds := fun hmm2 => (hmembers pr0 hpr0).2 m hmpr0 hmm2
      rw [List.count_eq_zero_of_not_mem hnotmain]
      cases haget : aget (sharedModulesOf lz) m with
      | some v =>
        rw [sum_map_zero lz _ (fun pr hpr => List.count_eq_zero_of_not_mem
          (fun hmem => by
            have hpred := List.of_mem_filter hmem
            rw [haget] at hpred
            simp at hpred))]
        have hprSmem : (m, v) ∈ sharedModulesOf lz := aget_mem haget
        obtain ⟨gstar, hgstar, hgkey⟩ := (groupsOf_spec lz).2.2 (m, v) hprSmem
        have hmgstar : m ∈ gstar.2.1 :=
          (((groupsOf_spec lz).2.1 gstar hgstar).2 m).mpr
            ⟨(m, v), hprSmem, rfl, hgkey.symm⟩
        rw [sum_map_one (groupsOf lz) (fun g => g.2.1.count m) gstar
          (List.Nodup.of_map Prod.fst (groupsOf_spec lz).1) hgstar
          (List.count_eq_one_of_mem ((groupsOf_spec lz).2.1 gstar hgstar).1 hmgstar)
          (fun g hg hne => List.count_eq_zero_of_not_mem (fun hmem => by
            obtain ⟨prS2, hprS2, hprS2m, hprS2k⟩ :=
              (((groupsOf_spec lz).2.1 g hg).2 m).mp hmem
            have hpreq : prS2 = (m, v) :=
              entries_eq_of_key_eq (sharedModulesOf_keys_nodup lz) hprS2 hprSmem hprS2m
            have hkeq : g.1 = gstar.1 := by
              rw [← hprS2k, hpreq, hgkey]
            exact hne (entries_eq_of_key_eq (groupsOf_spec lz).1 hg hgstar hkeq)))]
      | none =>
        rw [sum_map_zero (groupsOf lz) _ (fun g hg =>
          List.count_eq_zero_of_not_mem (fun hmem => by
            obtain ⟨prS2, hprS2, hprS2m, _⟩ :=
              (((groupsOf_spec lz).2.1 g hg).2 m).mp hmem
            have : m ∈ akeys (sharedModulesOf lz) :=
              List.mem_map.mpr ⟨prS2, hprS2, hprS2m⟩
            have := aget_isSome_of_mem_keys this
            rw [haget] at this
            simp at this))]
        have hmfilter : m ∈ pr0.2.moduleIds.filter
            (fun m2 => (aget (sharedModulesOf lz) m2).isNone) := by
          refine List.mem_filter.mpr ⟨hmpr0, ?_⟩
          rw [haget]
          rfl
        rw [sum_map_one lz
          (fun pr => (pr.2.moduleIds.filter
            (fun m2 => (aget (sharedModulesOf lz) m2).isNone)).count m)
          pr0 (List.Nodup.of_map Prod.fst hlznd) hpr0
          (List.count_eq_one_of_mem (List.Nodup.filter _ (hmembers pr0 hpr0).1) hmfilter)
          (fun pr1 hpr1 hne1 => List.count_eq_zero_of_not_mem (fun hmem =>
            hne1 (chunk_unique_of_not_shared lz hlznd m haget hpr1 hpr0
              (List.mem_of_mem_filter hmem) hmpr0)))]

theorem module_factory_exactly_once_witness :
    (bsC6W.map (fun b => b.moduleIds.count "./z.js")).sum = 1 :=
  module_factory_exactly_once graphC6W "/p/index.js" "/p"
    (modulesOf graphC6W "/p") rfl
    (mainBFS (modulesOf graphC6W "/p") "/p" [] [toModuleId "/p/index.js" "/p"]) rfl
    (lazyChunksOf (modulesOf graphC6W "/p") "/p"
      (mainBFS (modulesOf graphC6W "/p") "/p" [] [toModuleId "/p/index.js" "/p"])
      (dynamicEntryPointsOf (modulesOf graphC6W "/p") "/p")) rfl
    bsC6W rfl
    (by decide) (by decide)
    "./z.js" (by decide)

end Bundler
